import Mathlib

/-!
Verification of the ugit core (`base.py`, `data.py`, `remote.py`).

Python strings are modelled as `List Char` (`Str`), so that the byte-level
splitting and joining done by the source can be reproduced exactly and
reasoned about by structural induction.  The SHA-1 content digest of
`hash_object` is modelled as an injective hex encoding of the hashed bytes
(`kind || 0x00 || payload`): like the real digest it produces a string of
lowercase hex digits, and the content-addressing property (the stored object
is recovered from its id) is exact rather than merely collision-improbable.
Filesystem state (one file per ref, one file per object) is modelled as
association lists; recursion that Python performs without bound (symbolic-ref
chains, commit-graph walks) takes an explicit fuel parameter, with `none`
standing for the non-terminating / exception case.
-/

set_option maxRecDepth 100000
set_option maxHeartbeats 4000000

abbrev Str := List Char


namespace Ugit

/-- Lexicographic strict order on `Str`, matching Python string comparison. -/
def strLt : Str → Str → Bool
  | [], [] => false
  | [], _ :: _ => true
  | _ :: _, [] => false
  | a :: s, b :: t => if a < b then true else if b < a then false else strLt s t

/-- Non-strict lexicographic order on `Str`. -/
def strLe (s t : Str) : Bool := !(strLt t s)

/-- Python `s.startswith(p)`. -/
def strStarts : Str → Str → Bool
  | [], _ => true
  | _ :: _, [] => false
  | a :: p, b :: s => a = b && strStarts p s

/-- Python `s.split(sep)` for a one-character separator: keeps empty parts,
`"".split(sep) == [""]`. -/
def pySplit (sep : Char) : Str → List Str
  | [] => [[]]
  | c :: s =>
    if c = sep then [] :: pySplit sep s
    else match pySplit sep s with
      | [] => [[c]]
      | p :: r => (c :: p) :: r

/-- `"/".join`-style joining with a one-character separator. -/
def joinSep (sep : Char) : List Str → Str
  | [] => []
  | p :: r =>
    match r with
    | [] => p
    | q :: r' => p ++ sep :: joinSep sep (q :: r')

/-- Python `s.split(sep, 1)[1]`: everything after the first occurrence of
`sep` (the argument is assumed to contain `sep`; otherwise the whole string
is returned, a case the callers never reach). -/
def afterFirst (sep : Char) : Str → Str
  | [] => []
  | c :: s => if c = sep then s else afterFirst sep s

/-- The characters Python's `str.strip()` removes (the ASCII ones; the refs
and ids handled by the source are ASCII). -/
def isPySpace (c : Char) : Bool :=
  c = ' ' || c = '\t' || c = '\n' || c = '\r' || c = '\x0b' || c = '\x0c'

/-- Python `s.strip()`. -/
def pyStrip (s : Str) : Str :=
  (s.dropWhile isPySpace).reverse.dropWhile isPySpace |>.reverse

/-- The line-boundary characters of Python's `str.splitlines`
(`\x85`, ` `, ` ` included). -/
def isLineBreak (c : Char) : Bool :=
  c = '\n' || c = '\r' || c = '\x0b' || c = '\x0c' ||
  c = '\x1c' || c = '\x1d' || c = '\x1e' || c = '\x85' ||
  c = ' ' || c = ' '

/-- Python `s.splitlines()`: splits at every line-boundary character,
treating `"\r\n"` as a single boundary, and yields no final empty line for a
trailing boundary. -/
def pySplitlines : Str → List Str
  | [] => []
  | c :: s =>
    if isLineBreak c then
      if c = '\r' then
        match s with
        | [] => [[]]
        | d :: t => if d = '\n' then [] :: pySplitlines t else [] :: pySplitlines (d :: t)
      else [] :: pySplitlines s
    else
      match pySplitlines s with
      | [] => [[c]]
      | p :: r => (c :: p) :: r

/-- Python truthiness of an optional string (`None` and `''` are falsy). -/
def pyTruthy : Option Str → Bool
  | none => false
  | some s => !s.isEmpty

/-! ### The content digest

`hash_object` stores `kind || 0x00 || payload` under the hex SHA-1 of those
bytes.  The digest is modelled as the injective hex expansion of the hashed
bytes (two hex digits per ASCII character, an escaped six-digit group otherwise), so ids consist of hex digits exactly as
in the source, and `get_object` is its partial inverse. -/

def hexDigitChar (n : Nat) : Char :=
  if n < 10 then Char.ofNat (48 + n) else Char.ofNat (87 + n)

def hexValue (c : Char) : Option Nat :=
  let v := c.toNat
  if 48 ≤ v ∧ v ≤ 57 then some (v - 48)
  else if 97 ≤ v ∧ v ≤ 102 then some (v - 87)
  else none

def toHex6 (n : Nat) : Str :=
  [hexDigitChar (n / 1048576 % 16), hexDigitChar (n / 65536 % 16),
   hexDigitChar (n / 4096 % 16), hexDigitChar (n / 256 % 16),
   hexDigitChar (n / 16 % 16), hexDigitChar (n % 16)]

/-- One character of the digest: two hex digits for an ASCII code point
(first digit below 8), an `'f'` marker plus six hex digits otherwise. -/
def hexEncodeChar (c : Char) : Str :=
  if c.toNat < 128 then [hexDigitChar (c.toNat / 16), hexDigitChar (c.toNat % 16)]
  else 'f' :: toHex6 c.toNat

def hexEncode : Str → Str
  | [] => []
  | c :: s => hexEncodeChar c ++ hexEncode s

def hexByte (va : Nat) (b : Char) (t : Option Str) : Option Str :=
  (hexValue b).bind fun vb => t.map fun tail => Char.ofNat (va * 16 + vb) :: tail

def hexWide (b c d e f g : Char) (t : Option Str) : Option Str :=
  (hexValue b).bind fun vb =>
  (hexValue c).bind fun vc =>
  (hexValue d).bind fun vd =>
  (hexValue e).bind fun ve =>
  (hexValue f).bind fun vf =>
  (hexValue g).bind fun vg =>
    t.map fun tail =>
      Char.ofNat (vb * 1048576 + vc * 65536 + vd * 4096 + ve * 256 + vf * 16 + vg) :: tail

def hexDecode : Str → Option Str
  | [] => some []
  | [_] => none
  | a :: b :: r =>
    (hexValue a).bind fun va =>
      if va < 8 then hexByte va b (hexDecode r)
      else if va = 15 then
        match r with
        | c :: d :: e :: f :: g :: r2 => hexWide b c d e f g (hexDecode r2)
        | _ => none
      else none

/-- Every character of an encoded id is a lowercase hex digit. -/
def isHexChar (c : Char) : Bool :=
  (48 ≤ c.toNat ∧ c.toNat ≤ 57) || (97 ≤ c.toNat ∧ c.toNat ≤ 102)

/-! ### Constants of `data.py` -/

def BLOB_T : Str := "blob".data

def TREE_T : Str := "tree".data

def PARENT_T : Str := "parent".data

def COMMIT_T : Str := "commit".data

def HEAD : Str := "HEAD".data

def MERGE_HEAD : Str := "MERGE_HEAD".data

/-- `SYMBOLIC_REF_PREFIX = 'ref: '` of the source. -/
def refMarker : Str := "ref: ".data

/-! ### Object store

Objects live under `GIT_DIR/objects/<oid>` holding `kind || 0x00 || payload`.
With the digest modelled as the injective `hexEncode`, retrieval of a present
object is the partial inverse of the digest.  Which oids are present is
tracked as a list (the claims about transfer sets depend on presence). -/
/-- `hash_object`: the id under which `type_ || 0x00 || data` is stored. -/
def hash_object (dat : Str) (type_ : Str) : Str :=
  hexEncode (type_ ++ '\x00' :: dat)

/-- Split stored object bytes at the first NUL: `(kind, payload)`.
Returns `none` when no NUL occurs (Python `bytes.index` raising). -/
def splitObj : Str → Option (Str × Str)
  | [] => none
  | c :: s =>
    if c = '\x00' then some ([], s)
    else (splitObj s).map (fun p => (c :: p.1, p.2))

/-- Decode the bytes stored under an id: the inverse of `hash_object`. -/
def decodeObj (oid : Str) : Option (Str × Str) :=
  (hexDecode oid).bind splitObj

/-- `get_object(oid, expected)` against an explicit set of present oids:
opening a missing file fails, and the stored kind must match `expected`. -/
def get_object (objects : List Str) (oid : Str) (expected : Str) : Option Str :=
  if oid ∈ objects then
    match decodeObj oid with
    | some (t, content) => if t = expected then some content else none
    | none => none
  else none

/-- `object_exists(oid)`. -/
def object_exists (objects : List Str) (oid : Str) : Bool := oid ∈ objects

/-! ### Ref store

One file per ref under `GIT_DIR`; modelled as an association list from ref
path to file content (insertion order standing for directory-walk order). -/
abbrev Refs := List (Str × Str)

def lookupFile : Refs → Str → Option Str
  | [], _ => none
  | (k, v) :: r, p => if k = p then some v else lookupFile r p

/-- Write (create or overwrite) the file at `p`. -/
def fsWrite : Refs → Str → Str → Refs
  | [], p, v => [(p, v)]
  | (k, w) :: r, p, v => if k = p then (p, v) :: r else (k, w) :: fsWrite r p v

/-- Remove the file at `p` (first occurrence; ref states have unique paths). -/
def fsRemove : Refs → Str → Refs
  | [], _ => []
  | (k, w) :: r, p => if k = p then r else (k, w) :: fsRemove r p

structure RefValue where
  symbolic : Bool
  value : Option Str
deriving DecidableEq

/-- `_get_ref_internal(ref, deref)`: reads the ref file (stripped), follows
the symbolic chain when `deref`, and returns the final ref name with its
value.  A missing file gives an absent value `(symbolic=False, value=None)`.
The fuel bounds the chain length; `none` models Python's unbounded recursion
on a cyclic chain. -/
def getRefInternal : Nat → Refs → Str → Bool → Option (Str × RefValue)
  | 0, _, _, _ => none
  | fuel + 1, refs, ref, deref =>
    let value := (lookupFile refs ref).map pyStrip
    let symbolic := pyTruthy value && strStarts refMarker (value.getD [])
    if symbolic then
      let target := pyStrip (afterFirst ':' (value.getD []))
      if deref then getRefInternal fuel refs target true
      else some (ref, ⟨true, some target⟩)
    else some (ref, ⟨false, value⟩)

/-- `get_ref(ref, deref)`. -/
def get_ref (fuel : Nat) (refs : Refs) (ref : Str) (deref : Bool) : Option RefValue :=
  (getRefInternal fuel refs ref deref).map (·.2)

/-- `update_ref(ref, value, deref)`: resolves the name to write, asserts the
written value is non-empty, and writes it (symbolic values get the
`'ref: '` marker). -/
def update_ref (fuel : Nat) (refs : Refs) (ref : Str) (v : RefValue) (deref : Bool) :
    Option Refs := do
  let (name, _) ← getRefInternal fuel refs ref deref
  if pyTruthy v.value then
    let content := if v.symbolic then refMarker ++ v.value.getD [] else v.value.getD []
    some (fsWrite refs name content)
  else none

/-- `delete_ref(ref, deref)`: resolves like `update_ref` and removes the
file (`os.remove` on a missing file raises, hence `none`). -/
def delete_ref (fuel : Nat) (refs : Refs) (ref : Str) (deref : Bool) : Option Refs := do
  let (name, _) ← getRefInternal fuel refs ref deref
  if (lookupFile refs name).isSome then some (fsRemove refs name) else none

/-- `os.path.normpath` (POSIX flavour), as used by `iter_refs`. -/
def normpath (p : Str) : Str :=
  if p = [] then ['.']
  else
    let islash : Nat :=
      if strStarts ("/".data) p then
        if strStarts ("//".data) p && !strStarts ("///".data) p then 2 else 1
      else 0
    let comps := pySplit '/' p
    let newComps := comps.foldl (fun acc comp =>
      if comp = [] ∨ comp = ['.'] then acc
      else if comp ≠ ['.', '.'] ∨ (islash = 0 ∧ acc = []) ∨
          (acc ≠ [] ∧ acc.getLast? = some ['.', '.']) then acc ++ [comp]
      else if acc ≠ [] then acc.dropLast else acc) []
    let path := List.replicate islash '/' ++ joinSep '/' newComps
    if path = [] then ['.'] else path

/-- The ref names `iter_refs` walks below `GIT_DIR/refs/`, in walk order. -/
def walkedRefs (refs : Refs) : List Str :=
  refs.filterMap (fun e => if strStarts ("refs/".data) e.1 then some e.1 else none)

/-- `iter_refs(prefix, deref)`: considers `HEAD`, `MERGE_HEAD` and every
walked ref; a non-empty prefix filters all of them by
`normpath(refname).startswith(normpath(prefix))`; only refs with a truthy
resolved value are yielded. -/
def iter_refs (fuel : Nat) (refs : Refs) (pfx : Str) (deref : Bool) :
    Option (List (Str × RefValue)) :=
  (HEAD :: MERGE_HEAD :: walkedRefs refs).foldlM (fun acc name =>
    if !pfx.isEmpty && !strStarts (normpath pfx) (normpath name) then some acc
    else do
      let rv ← get_ref fuel refs name deref
      if pyTruthy rv.value then some (acc ++ [(name, rv)]) else some acc) []

def mainRef : Str := "refs/heads/main".data

/-! ### Tree codec (`write_tree` / `get_tree` of `base.py`)

`write_tree` groups the flat index into a nested dict (`index_as_tree`),
then hashes it bottom-up with the entries of every directory sorted.  The
nested Python dict is modelled as an association list in insertion order
with dict update semantics. -/

mutual
inductive PTree where
  | blob (oid : Str)
  | dir (entries : PDict)
deriving DecidableEq
/-- A Python dict from names to subtrees, in insertion order. -/
inductive PDict where
  | nil
  | cons (name : Str) (t : PTree) (rest : PDict)
deriving DecidableEq
end

/-- Python dict assignment `d[k] = v`: replaces in place or appends. -/
def dictSet : PDict → Str → PTree → PDict
  | .nil, k, v => .cons k v .nil
  | .cons k' v' r, k, v => if k' = k then .cons k v r else .cons k' v' (dictSet r k v)

/-- Python dict lookup (first match; built dicts have unique keys). -/
def dictFind : PDict → Str → Option PTree
  | .nil, _ => none
  | .cons k' v' r, k => if k' = k then some v' else dictFind r k

/-- One index entry inserted into the nested dict: the source walks
`dirpath = segs[:-1]` with `setdefault(dirname, {})` and finally assigns
`current[filename] = oid`; walking into a blob value raises (`none`), a
final assignment replaces whatever was there. -/
def insertSegs : List Str → Str → PDict → Option PDict
  | [], _, _ => none
  | [fn], oid, d => some (dictSet d fn (.blob oid))
  | dn :: rest, oid, d =>
    match dictFind d dn with
    | none => (insertSegs rest oid .nil).map (fun sub => dictSet d dn (.dir sub))
    | some (.dir sub) => (insertSegs rest oid sub).map (fun sub' => dictSet d dn (.dir sub'))
    | some (.blob _) => none

/-- `index_as_tree` built by iterating the flat index in order. -/
def buildTree (index : List (Str × Str)) : Option PDict :=
  index.foldlM (fun d e => insertSegs (pySplit '/' e.1) e.2 d) .nil

/-- Python tuple comparison on the `(name, oid, type)` entries sorted by
`write_tree_recursive`. -/
def tripLe (a b : Str × Str × Str) : Prop :=
  strLt a.1 b.1 = true ∨ (a.1 = b.1 ∧ (strLt a.2.1 b.2.1 = true ∨
    (a.2.1 = b.2.1 ∧ strLe a.2.2 b.2.2 = true)))

instance : DecidableRel tripLe := fun a b => by
  unfold tripLe
  infer_instance

def sortTriples (l : List (Str × Str × Str)) : List (Str × Str × Str) :=
  List.insertionSort tripLe l

/-- `''.join(f'{type_} {oid} {name}\n' ...)` over the sorted entries. -/
def renderTree : List (Str × Str × Str) → Str
  | [] => []
  | (name, oid, type_) :: r => type_ ++ ' ' :: oid ++ ' ' :: name ++ '\n' :: renderTree r

/-- The kind tag a subtree value contributes to its entry. -/
def treeKind : PTree → Str
  | .blob _ => BLOB_T
  | .dir _ => TREE_T

mutual
/-- The oid a subtree value contributes to its entry: the stored id for a
blob, the recursive hash for a directory. -/
def treeOid : PTree → Str
  | .blob o => o
  | .dir sub => hash_object (renderTree (sortTriples (entryTriples sub))) TREE_T

/-- The `(name, oid, type_)` entries of `write_tree_recursive`. -/
def entryTriples : PDict → List (Str × Str × Str)
  | .nil => []
  | .cons name t r => (name, treeOid t, treeKind t) :: entryTriples r
end

/-- `write_tree_recursive`: hash of the sorted, rendered entry list. -/
def writeTreeDir (d : PDict) : Str :=
  hash_object (renderTree (sortTriples (entryTriples d))) TREE_T

/-- `write_tree()` on a given flat index: the root tree id, `none` when the
nested-dict construction raises (a path used both as file and directory). -/
def write_tree (index : List (Str × Str)) : Option Str :=
  (buildTree index).map writeTreeDir

mutual
def treeObjOids : PTree → List Str
  | .blob _ => []
  | .dir sub => writeTreeDir sub :: dictObjOids sub

def dictObjOids : PDict → List Str
  | .nil => []
  | .cons _ t r => treeObjOids t ++ dictObjOids r
end

/-- All tree object ids written by `write_tree_recursive` (the root and
every subdirectory; blobs are not written by `write_tree`). -/
def subtreeOids (d : PDict) : List Str :=
  writeTreeDir d :: dictObjOids d

/-- `_iter_tree_entries(oid)`: no entries for a falsy oid, otherwise the
stored tree content split into lines, each split as `type, oid, name =
entry.split(' ', 2)`. -/
def pySplitOnce (sep : Char) : Str → Option (Str × Str)
  | [] => none
  | c :: s => if c = sep then some ([], s) else (pySplitOnce sep s).map (fun p => (c :: p.1, p.2))

def iterTreeEntries (objects : List Str) (oid : Str) : Option (List (Str × Str × Str)) :=
  if oid.isEmpty then some []
  else do
    let tree ← get_object objects oid TREE_T
    (pySplitlines tree).mapM (fun entry => do
      let (type_, rest) ← pySplitOnce ' ' entry
      let (o, name) ← pySplitOnce ' ' rest
      some (type_, o, name))

/-- `dict.update` with another flat mapping. -/
def dictUpdate (acc : List (Str × Str)) (sub : List (Str × Str)) : List (Str × Str) :=
  sub.foldl (fun a e => fsWrite a e.1 e.2) acc

/-- `get_tree(oid, base_path)`: rebuilds the flat mapping, failing on a
name containing `/` or equal to `.`/`..`, or an unknown entry kind.  The
fuel bounds the tree depth (Python recurses without bound). -/
def get_tree : Nat → List Str → Str → Str → Option (List (Str × Str))
  | 0, _, _, _ => none
  | fuel + 1, objects, oid, base =>
    match iterTreeEntries objects oid with
    | none => none
    | some entries =>
      entries.foldlM (fun acc e =>
        let (type_, o, name) := e
        if '/' ∈ name then none
        else if name = ( "..".data) ∨ name = ( ".".data) then none
        else if type_ = BLOB_T then some (fsWrite acc (base ++ name) o)
        else if type_ = TREE_T then
          (get_tree fuel objects o (base ++ name ++ ['/'])).map (dictUpdate acc)
        else none) []

/-! ### Commit objects and the commit graph (`base.py`) -/
structure Commit where
  tree : Str
  parents : List Str
  message : Str
deriving DecidableEq

/-- One header line processed: `key, value = line.split(' ', 1)`, `tree`
assigned, `parent` appended, anything else raising. -/
def hdrStep (acc : Option Str × List Str) (line : Str) : Option (Option Str × List Str) := do
  let kv ← pySplitOnce ' ' line
  if kv.1 = TREE_T then some (some kv.2, acc.2)
  else if kv.1 = PARENT_T then some (acc.1, acc.2 ++ [kv.2])
  else none

/-- Parse a commit payload: header lines up to the first blank line
(`tree <id>` and `parent <id>`, anything else raises), then the message,
`'\n'.join` of the remaining lines. -/
def parseCommit (content : Str) : Option Commit := do
  let lines := pySplitlines content
  let hdrs := lines.takeWhile (fun l => !l.isEmpty)
  let rest := (lines.drop hdrs.length).drop 1
  let st ← hdrs.foldlM hdrStep ((none : Option Str), ([] : List Str))
  let tree ← st.1
  some ⟨tree, st.2, joinSep '\n' rest⟩

/-- `get_commit(oid)`. -/
def get_commit (objects : List Str) (oid : Str) : Option Commit := do
  let content ← get_object objects oid COMMIT_T
  parseCommit content

/-- `iter_commits_and_parents`: breadth-first over the deque, first parent
prepended (visited next), remaining parents appended; empty and visited
ids are skipped.  Returns the visit order. -/
def iterCommitsAux : Nat → List Str → List Str → List Str → Option (List Str)
  | 0, _, _, _ => none
  | _ + 1, _, [], _ => some []
  | fuel + 1, objects, oid :: rest, visited =>
    if oid.isEmpty || oid ∈ visited then iterCommitsAux fuel objects rest visited
    else do
      let c ← get_commit objects oid
      let tail ← iterCommitsAux fuel objects
        (c.parents.take 1 ++ rest ++ c.parents.drop 1) (oid :: visited)
      some (oid :: tail)

def iter_commits_and_parents (fuel : Nat) (objects : List Str) (oids : List Str) :
    Option (List Str) :=
  iterCommitsAux fuel objects oids []

/-- `is_ancestor_of(commit, maybe_ancestor)`. -/
def is_ancestor_of (fuel : Nat) (objects : List Str) (c maybe_ancestor : Str) :
    Option Bool :=
  (iter_commits_and_parents fuel objects [c]).map (fun l => decide (maybe_ancestor ∈ l))

/-- `get_merge_base(oid1, oid2)`: materialize `oid1`'s ancestor set, walk
`oid2`'s ancestors in order, return the first common one (or `None`). -/
def get_merge_base (fuel : Nat) (objects : List Str) (oid1 oid2 : Str) :
    Option (Option Str) := do
  let p1 ← iter_commits_and_parents fuel objects [oid1]
  let l2 ← iter_commits_and_parents fuel objects [oid2]
  some (l2.find? (fun o => decide (o ∈ p1)))

/-- `iter_objects_in_tree` of `iter_objects_in_commits`: yields the tree id,
then unvisited children (recursing into subtrees); returns the yielded ids
and the updated visited set. -/
def iterObjectsInTree : Nat → List Str → Str → List Str → Option (List Str × List Str)
  | 0, _, _, _ => none
  | fuel + 1, objects, oid, visited => do
    let entries ← iterTreeEntries objects oid
    entries.foldlM (fun acc e =>
      let (type_, o, _) := e
      if o ∈ acc.2 then some acc
      else if type_ = TREE_T then do
        let (ys, vis') ← iterObjectsInTree fuel objects o acc.2
        some (acc.1 ++ ys, vis')
      else some (acc.1 ++ [o], o :: acc.2)) ([oid], oid :: visited)

/-- `iter_objects_in_commits(oids)`: every reachable commit id, each
followed by the closure of its tree's objects (deduplicated by a visited
set shared across the traversal). -/
def iter_objects_in_commits (fuel : Nat) (objects : List Str) (oids : List Str) :
    Option (List Str) := do
  let cs ← iter_commits_and_parents fuel objects oids
  let st ← cs.foldlM (fun acc oid => do
      let c ← get_commit objects oid
      if c.tree ∈ acc.2 then some (acc.1 ++ [oid], acc.2)
      else do
        let (ys, vis') ← iterObjectsInTree fuel objects c.tree acc.2
        some (acc.1 ++ [oid] ++ ys, vis')) (([] : List Str), ([] : List Str))
  some st.1

/-! ### Repository state and the stateful operations -/
/-- One ugit store: ref files, present object ids, and the (external)
index.  Object payloads are implied by content addressing (`decodeObj`). -/
structure Repo where
  refs : Refs
  objects : List Str
  index : List (Str × Str)
deriving DecidableEq

/-- `read_tree(tree_oid)` (without working-tree update): replace the index
wholesale with `get_tree(tree_oid)`. -/
def read_tree (fuel : Nat) (st : Repo) (tree_oid : Str) : Option Repo :=
  (get_tree fuel st.objects tree_oid []).map (fun idx => { st with index := idx })

/-- `commit(message)`: `tree` header from `write_tree()`, a `parent` line
for a truthy HEAD, another for a truthy MERGE_HEAD (which is then deleted
with `deref=False`), a blank line, the message plus a newline; the commit
object is stored and HEAD updated to it. -/
def commit (fuel : Nat) (st : Repo) (message : Str) : Option (Str × Repo) := do
  let d ← buildTree st.index
  let toid := writeTreeDir d
  let st1 : Repo := { st with objects := subtreeOids d ++ st.objects }
  let content1 := TREE_T ++ ' ' :: toid ++ ['\n']
  let hv ← get_ref fuel st1.refs HEAD true
  let content2 :=
    if pyTruthy hv.value then content1 ++ PARENT_T ++ ' ' :: hv.value.getD [] ++ ['\n']
    else content1
  let mv ← get_ref fuel st1.refs MERGE_HEAD true
  let s ←
    if pyTruthy mv.value then do
      let refs' ← delete_ref fuel st1.refs MERGE_HEAD false
      some (content2 ++ PARENT_T ++ ' ' :: mv.value.getD [] ++ ['\n'],
        { st1 with refs := refs' })
    else some (content2, st1)
  let content := s.1 ++ '\n' :: message ++ ['\n']
  let coid := hash_object content COMMIT_T
  let st3 : Repo := { s.2 with objects := coid :: s.2.objects }
  let refs2 ← update_ref fuel st3.refs HEAD ⟨false, some coid⟩ true
  some (coid, { st3 with refs := refs2 })

/-- `merge(other)`: requires a truthy HEAD; on `merge_base == HEAD` the
fast-forward path replaces the index with `other`'s tree and moves HEAD to
`other` without touching MERGE_HEAD; otherwise MERGE_HEAD is set to
`other` and the merged tree of the three commits is staged.
`merge_trees` is the external collaborator of `diff.py` (not part of the
core), passed in as a pure function. -/
def merge (mergeTrees : List (Str × Str) → List (Str × Str) → List (Str × Str) →
      List (Str × Str))
    (fuel : Nat) (st : Repo) (other : Str) : Option Repo := do
  let hv ← get_ref fuel st.refs HEAD true
  if pyTruthy hv.value then
    let H := hv.value.getD []
    let mb ← get_merge_base fuel st.objects other H
    let c_other ← get_commit st.objects other
    if mb = some H then do
      let st' ← read_tree fuel st c_other.tree
      let refs' ← update_ref fuel st'.refs HEAD ⟨false, some other⟩ true
      some { st' with refs := refs' }
    else do
      let refs' ← update_ref fuel st.refs MERGE_HEAD ⟨false, some other⟩ true
      let c_base ← get_commit st.objects (mb.getD [])
      let c_H ← get_commit st.objects H
      let t_base ← get_tree fuel st.objects c_base.tree []
      let t_H ← get_tree fuel st.objects c_H.tree []
      let t_other ← get_tree fuel st.objects c_other.tree []
      some { st with refs := refs', index := mergeTrees t_base t_H t_other }
  else none

/-! ### Remote synchronisation (`remote.py`) -/
/-- `push_object(oid, remote_git_dir)` of `data.py`, modelled by the
`(source, destination)` path pair handed to `shutil.copy`.  The body
reassigns its `remote_git_dir` parameter to the literal `'/.ugit'`
(instead of appending) before building the destination path. -/
def push_object_paths (git_dir oid remote_git_dir : Str) : Str × Str :=
  let remote_git_dir := "/.ugit".data
  (git_dir ++ ( "/objects/".data) ++ oid, remote_git_dir ++ ( "/objects/".data) ++ oid)

/-- `_get_remote_refs(remote_path, '')`: the name-to-value mapping of
`iter_refs` run against the remote store. -/
def getRemoteRefs (fuel : Nat) (re : Repo) : Option (List (Str × Str)) :=
  (iter_refs fuel re.refs [] true).map (List.map (fun e => (e.1, e.2.value.getD [])))

/-- Python `dict.get` over the pairs (later duplicates override earlier). -/
def pyDictGet (l : List (Str × Str)) (k : Str) : Option Str :=
  (l.reverse.find? (fun e => decide (e.1 = k))).map (·.2)

inductive PushErr where
  | nonFastForward
  | nothingToPush
  | internal
deriving DecidableEq

deriving instance DecidableEq for Except

/-- The tail of `push` after both asserts: the ref *names* of the remote
mapping (dict iteration yields keys) are filtered through `object_exists`
against the *local* store, reachable object sets are computed, and the
difference is pushed; finally the remote ref is set to the local value.
`push_object` copies to the literal path `'/.ugit'` (see
`push_object_paths`), so no object lands in the remote store. -/
def pushRest (fuel : Nat) (lo re : Repo) (refname : Str)
    (remote_refs : List (Str × Str)) (local_ref : Str) :
    Except (PushErr × Repo) (Repo × List Str) :=
  let known_remote_refs := (remote_refs.map Prod.fst).filter (object_exists lo.objects)
  match iter_objects_in_commits fuel lo.objects known_remote_refs with
  | none => .error (.internal, re)
  | some remote_objects =>
    match iter_objects_in_commits fuel lo.objects [local_ref] with
    | none => .error (.internal, re)
    | some local_objects =>
      let objects_to_push := local_objects.filter (fun o => decide (o ∉ remote_objects))
      match update_ref fuel re.refs refname ⟨false, some local_ref⟩ true with
      | none => .error (.internal, re)
      | some refs' => .ok ({ re with refs := refs' }, objects_to_push)

/-- `push(remote_path, refname)`: reads the remote refs and the local
value, asserts there is something to push, asserts the fast-forward
condition `not remote_ref or is_ancestor_of(local_ref, remote_ref)`, and
only then transfers and updates.  Errors carry the remote store as it was
when the exception was raised. -/
def push (fuel : Nat) (lo re : Repo) (refname : Str) :
    Except (PushErr × Repo) (Repo × List Str) :=
  match getRemoteRefs fuel re with
  | none => .error (.internal, re)
  | some remote_refs =>
    let remote_ref := pyDictGet remote_refs refname
    match get_ref fuel lo.refs refname true with
    | none => .error (.internal, re)
    | some rv =>
      if pyTruthy rv.value then
        let local_ref := rv.value.getD []
        if pyTruthy remote_ref then
          match is_ancestor_of fuel lo.objects local_ref (remote_ref.getD []) with
          | none => .error (.internal, re)
          | some true => pushRest fuel lo re refname remote_refs local_ref
          | some false => .error (.nonFastForward, re)
        else pushRest fuel lo re refname remote_refs local_ref
      else .error (.nothingToPush, re)

def aOid : Str := "aaaaaaaaaaaaaaaaaaaaaaaaaaaaaaaaaaaaaaaa".data

def wTreeOid : Str := hash_object [] TREE_T

def wCommitA : Str := hash_object (TREE_T ++ ' ' :: wTreeOid ++ ( "\n\nA\n".data)) COMMIT_T

def wCommitB : Str := hash_object (TREE_T ++ ' ' :: wTreeOid ++ ( "\n\nB\n".data)) COMMIT_T

def masterRef : Str := "refs/heads/master".data

def c2Local : Repo := ⟨[(masterRef, wCommitA)], [wTreeOid, wCommitA], []⟩

def c2Remote : Repo := ⟨[(masterRef, wCommitB)], [], []⟩

/-! ### Commit serialization helpers -/

/-- No line-boundary character occurs in `s`. -/
def noLB (s : Str) : Prop := ∀ c ∈ s, isLineBreak c = false

/-- Every line break in `s` is a plain `'\n'`. -/
def nlOnly (s : Str) : Prop := ∀ c ∈ s, isLineBreak c = true → c = '\n'

instance (s : Str) : Decidable (noLB s) := by
  unfold noLB
  infer_instance

instance (s : Str) : Decidable (nlOnly s) := by
  unfold nlOnly
  infer_instance

/-- The parent list contributed by one ref value in `commit`. -/
def optPart (rv : RefValue) : List Str :=
  if pyTruthy rv.value then [rv.value.getD []] else []

/-- The `parent <id>` lines of a serialized commit. -/
def parentLines : List Str → Str
  | [] => []
  | p :: r => PARENT_T ++ ' ' :: p ++ ['\n'] ++ parentLines r

/-- The exact payload built by `commit`: tree line, parent lines, a blank
line, then the message with one newline appended. -/
def commitPayload (toid : Str) (ps : List Str) (msg : Str) : Str :=
  TREE_T ++ ' ' :: toid ++ ['\n'] ++ parentLines ps ++ '\n' :: msg ++ ['\n']

def bOid : Str := "bbbbbbbbbbbbbbbbbbbbbbbbbbbbbbbbbbbbbbbb".data

def c6St : Repo := ⟨[(HEAD, aOid), (MERGE_HEAD, bOid)], [], []⟩

def c6Coid : Str := hash_object (commitPayload wTreeOid [aOid, bOid] ( "m".data)) COMMIT_T

def c6St' : Repo := ⟨[(HEAD, c6Coid)], [c6Coid, wTreeOid], []⟩

def c9Coid : Str := hash_object (commitPayload wTreeOid [] ( "a\rb".data)) COMMIT_T

def c9wCoid : Str := hash_object (commitPayload wTreeOid [] ( "a\nb".data)) COMMIT_T

def c5B : Str :=
  hash_object (TREE_T ++ ' ' :: wTreeOid ++ ['\n'] ++ PARENT_T ++ ' ' :: wCommitA ++
    ( "\n\nB\n".data)) COMMIT_T

def c5St : Repo :=
  ⟨[(HEAD, refMarker ++ masterRef), (masterRef, wCommitA)], [wTreeOid, wCommitA, c5B], []⟩

def c5St' : Repo :=
  ⟨[(HEAD, refMarker ++ masterRef), (masterRef, c5B)], [wTreeOid, wCommitA, c5B], []⟩

/-- Modelled from the spec: the enumeration C8 describes, with the one
correction that a non-empty prefix filters *every* candidate name — `HEAD`
and `MERGE_HEAD` included — before resolution, rather than always yielding
them. -/
def iterRefsSpec (fuel : Nat) (refs : Refs) (pfx : Str) (deref : Bool) :
    Option (List (Str × RefValue)) :=
  ((HEAD :: MERGE_HEAD :: walkedRefs refs).filter
      (fun name => pfx.isEmpty || strStarts (normpath pfx) (normpath name))).foldlM
    (fun acc name => do
      let rv ← get_ref fuel refs name deref
      if pyTruthy rv.value then some (acc ++ [(name, rv)]) else some acc) []

def c8Refs : Refs := [(HEAD, aOid), (masterRef, aOid)]

/-- The path segments of an index path. -/
def segsOf (p : Str) : List Str := pySplit '/' p

mutual
/-- The flat content of a subtree value: segment paths to blob ids. -/
def flattenT : PTree → List (List Str × Str)
  | .blob o => [([], o)]
  | .dir d => flattenD d
/-- The flat content of a nested dict, in entry order. -/
def flattenD : PDict → List (List Str × Str)
  | .nil => []
  | .cons k t r => (flattenT t).map (fun e => (k :: e.1, e.2)) ++ flattenD r
end

def dictKeys : PDict → List Str
  | .nil => []
  | .cons k _ r => k :: dictKeys r

mutual
/-- Well-formed subtree: directories are non-empty. -/
def wfT : PTree → Prop
  | .blob _ => True
  | .dir d => wfD d ∧ d ≠ .nil
/-- Well-formed dict: unique keys, well-formed values. -/
def wfD : PDict → Prop
  | .nil => True
  | .cons k t r => wfT t ∧ wfD r ∧ k ∉ dictKeys r
end

/-- A directory-entry name `write_tree` may emit and `get_tree` accepts
back: non-empty, not a dot name, free of `'/'` and of line breaks. -/
def goodKey (k : Str) : Prop :=
  k ≠ [] ∧ k ≠ ( ".".data) ∧ k ≠ ( "..".data) ∧ noLB k ∧ '/' ∉ k

/-- A blob id as stored in a tree entry: hex digits only. -/
def goodOid (o : Str) : Prop := ∀ c ∈ o, isHexChar c = true

mutual
def goodT : PTree → Prop
  | .blob o => goodOid o
  | .dir d => goodD d
def goodD : PDict → Prop
  | .nil => True
  | .cons k t r => goodKey k ∧ goodT t ∧ goodD r
end

mutual
/-- Depth of a subtree value, bounding `get_tree`'s recursion. -/
def depthT : PTree → Nat
  | .blob _ => 0
  | .dir d => depthD d + 1
/-- Depth of the nesting below a dict. -/
def depthD : PDict → Nat
  | .nil => 0
  | .cons _ t r => max (depthT t) (depthD r)
end

instance (s : Str) : Decidable (goodKey s) := by
  unfold goodKey noLB
  infer_instance

instance (s : Str) : Decidable (goodOid s) := by
  unfold goodOid
  infer_instance

/-- The index validity under which C1's determinism and round trip hold:
well-formed path segments, hex blob ids, no duplicate paths, and no path a
(segment-wise) prefix of another. -/
def validIndex (M : List (Str × Str)) : Prop :=
  (∀ e ∈ M, (∀ s ∈ segsOf e.1, goodKey s) ∧ goodOid e.2) ∧
  (M.map Prod.fst).Nodup ∧
  M.Pairwise (fun e f => ¬ (segsOf e.1 <+: segsOf f.1) ∧ ¬ (segsOf f.1 <+: segsOf e.1))

instance (M : List (Str × Str)) : Decidable (validIndex M) := by
  unfold validIndex
  infer_instance

/-- The entries of a flat listing lying under directory name `k`, with `k`
stripped. -/
def groupOf (k : Str) (L : List (List Str × Str)) : List (List Str × Str) :=
  L.filterMap (fun e => match e.1 with
    | [] => none
    | h :: tl => if h = k then some (tl, e.2) else none)

/-- The subtree stored under a key (junk blob when absent; only used under
a membership hypothesis). -/
def getT (d : PDict) (k : Str) : PTree := (dictFind d k).getD (.blob [])

/-- The rendered line of one `(name, oid, type)` entry. -/
def lineOf (tr : Str × Str × Str) : Str := tr.2.2 ++ ' ' :: tr.2.1 ++ ' ' :: tr.1

def c1Bad1 : List (Str × Str) := [(( "a".data), ( "11".data)), (( "a/b".data), ( "22".data))]

def c1Bad2 : List (Str × Str) := [(( "a/b".data), ( "22".data)), (( "a".data), ( "11".data))]

def c1M1 : List (Str × Str) :=
  [(( "a/b".data), hash_object ( "x".data) BLOB_T), (( "c".data), hash_object ( "y".data) BLOB_T)]

def c1M2 : List (Str × Str) :=
  [(( "c".data), hash_object ( "y".data) BLOB_T), (( "a/b".data), hash_object ( "x".data) BLOB_T)]

theorem hexValue_hexDigitChar {n : Nat} (h : n < 16) :
    hexValue (hexDigitChar n) = some n := by
  interval_cases n <;> decide

theorem char_toNat_lt (c : Char) : c.toNat < 16777216 := by
  have h := c.valid
  change c.val.toNat < 16777216
  rcases h with h | ⟨h1, h2⟩ <;> omega

theorem hexDecode_cons2 (a b : Char) (r : Str) (va vb : Nat) (ha : hexValue a = some va)
    (hb : hexValue b = some vb) (hva : va < 8) :
    hexDecode (a :: b :: r) =
      (hexDecode r).map fun tail => Char.ofNat (va * 16 + vb) :: tail := by
  rw [hexDecode.eq_def]
  dsimp only
  rw [ha, Option.some_bind, if_pos hva, hexByte, hb, Option.some_bind]

theorem hexDecode_cons7 (a b c d e f g : Char) (r : Str)
    (vb vc vd ve vf vg : Nat) (ha : hexValue a = some 15)
    (hb : hexValue b = some vb) (hc : hexValue c = some vc) (hd : hexValue d = some vd)
    (he : hexValue e = some ve) (hf : hexValue f = some vf) (hg : hexValue g = some vg) :
    hexDecode (a :: b :: c :: d :: e :: f :: g :: r) =
      (hexDecode r).map fun tail =>
        Char.ofNat (vb * 1048576 + vc * 65536 + vd * 4096 + ve * 256 +
          vf * 16 + vg) :: tail := by
  rw [hexDecode.eq_def]
  dsimp only
  rw [ha, Option.some_bind, if_neg (by omega), if_pos rfl, hexWide, hb,
    Option.some_bind, hc, Option.some_bind, hd, Option.some_bind,
    he, Option.some_bind, hf, Option.some_bind, hg, Option.some_bind]

theorem hexDecode_encChar_append (c : Char) (r : Str) :
    hexDecode (hexEncodeChar c ++ r) = (hexDecode r).map (c :: ·) := by
  have hlt : c.toNat < 16777216 := char_toNat_lt c
  by_cases hsmall : c.toNat < 128
  · have hsum : c.toNat / 16 * 16 + c.toNat % 16 = c.toNat := by omega
    rw [hexEncodeChar, if_pos hsmall, List.cons_append, List.cons_append, List.nil_append,
      hexDecode_cons2 _ _ _ _ _ (hexValue_hexDigitChar (by omega))
        (hexValue_hexDigitChar (by omega)) (by omega),
      hsum]
    cases hexDecode r <;> simp
  · have hsum : c.toNat / 1048576 % 16 * 1048576 + c.toNat / 65536 % 16 * 65536 +
        c.toNat / 4096 % 16 * 4096 + c.toNat / 256 % 16 * 256 +
        c.toNat / 16 % 16 * 16 + c.toNat % 16 = c.toNat := by omega
    rw [hexEncodeChar, if_neg hsmall, toHex6]
    rw [List.cons_append, List.cons_append, List.cons_append, List.cons_append,
      List.cons_append, List.cons_append, List.cons_append, List.nil_append]
    rw [hexDecode_cons7 _ _ _ _ _ _ _ _ _ _ _ _ _ _ (by decide)
      (hexValue_hexDigitChar (by omega)) (hexValue_hexDigitChar (by omega))
      (hexValue_hexDigitChar (by omega)) (hexValue_hexDigitChar (by omega))
      (hexValue_hexDigitChar (by omega)) (hexValue_hexDigitChar (by omega)),
      hsum]
    cases hexDecode r <;> simp

theorem hexDecode_hexEncode (s : Str) : hexDecode (hexEncode s) = some s := by
  induction s with
  | nil => rfl
  | cons c r ih =>
    rw [hexEncode, hexDecode_encChar_append, ih]
    rfl

theorem hexEncode_length (s : Str) : 2 * s.length ≤ (hexEncode s).length := by
  induction s with
  | nil => simp [hexEncode]
  | cons c r ih =>
    rw [hexEncode]
    rw [List.length_append, List.length_cons]
    have : 2 ≤ (hexEncodeChar c).length := by
      rw [hexEncodeChar]
      by_cases h : c.toNat < 128
      · simp [h]
      · simp [h, toHex6]
    omega

theorem isHexChar_hexDigitChar {n : Nat} (h : n < 16) :
    isHexChar (hexDigitChar n) = true := by
  interval_cases n <;> decide

theorem hexEncode_all_hex (s : Str) : ∀ c ∈ hexEncode s, isHexChar c = true := by
  induction s with
  | nil => intro c hc; cases hc
  | cons a r ih =>
    intro c hc
    simp only [hexEncode, List.mem_append] at hc
    rcases hc with hc | hc
    · rw [hexEncodeChar] at hc
      by_cases h : a.toNat < 128
      · rw [if_pos h] at hc
        simp only [List.mem_cons, List.not_mem_nil, or_false] at hc
        rcases hc with h' | h' <;> (subst h'; exact isHexChar_hexDigitChar (by omega))
      · rw [if_neg h] at hc
        simp only [toHex6, List.mem_cons, List.not_mem_nil, or_false] at hc
        rcases hc with h' | h' | h' | h' | h' | h' | h' <;>
          first
          | (subst h'; decide)
          | (subst h'; exact isHexChar_hexDigitChar (by omega))
    · exact ih c hc

theorem splitObj_append (t s : Str) (ht : '\x00' ∉ t) :
    splitObj (t ++ '\x00' :: s) = some (t, s) := by
  induction t with
  | nil => simp [splitObj]
  | cons c r ih =>
    simp only [List.mem_cons, not_or] at ht
    simp [splitObj, (show ¬c = '\x00' from fun h => ht.1 h.symm), ih ht.2]

theorem decodeObj_hash_object (dat t : Str) (ht : '\x00' ∉ t) :
    decodeObj (hash_object dat t) = some (t, dat) := by
  simp [decodeObj, hash_object, hexDecode_hexEncode, splitObj_append _ _ ht]

theorem get_object_hash (objects : List Str) (dat t : Str) (ht : '\x00' ∉ t)
    (hmem : hash_object dat t ∈ objects) :
    get_object objects (hash_object dat t) t = some dat := by
  simp [get_object, hmem, decodeObj_hash_object dat t ht]

/-! ### Basic facts about the modelled file system and ref resolution -/

theorem lookupFile_fsWrite_self (refs : Refs) (p v : Str) :
    lookupFile (fsWrite refs p v) p = some v := by
  induction refs with
  | nil => simp [fsWrite, lookupFile]
  | cons e r ih =>
    obtain ⟨k, w⟩ := e
    by_cases h : k = p
    · simp [fsWrite, h, lookupFile]
    · simp [fsWrite, h, lookupFile, ih]

theorem lookupFile_fsWrite_ne (refs : Refs) (p v q : Str) (h : q ≠ p) :
    lookupFile (fsWrite refs p v) q = lookupFile refs q := by
  induction refs with
  | nil => simp [fsWrite, lookupFile, h.symm]
  | cons e r ih =>
    obtain ⟨k, w⟩ := e
    by_cases he : k = p
    · subst he
      simp [fsWrite, lookupFile, (show ¬k = q from fun hh => h hh.symm)]
    · by_cases hq : k = q
      · subst hq
        simp [fsWrite, he, lookupFile]
      · simp [fsWrite, he, lookupFile, hq, ih]

theorem lookupFile_eq_none_of_not_mem (r : Refs) (p : Str)
    (h : p ∉ r.map Prod.fst) : lookupFile r p = none := by
  induction r with
  | nil => rfl
  | cons e t ih =>
    simp only [List.map_cons, List.mem_cons, not_or] at h
    simp only [lookupFile]
    rw [if_neg (fun hh => h.1 hh.symm)]
    exact ih h.2

theorem lookupFile_fsRemove_self (refs : Refs) (p : Str)
    (hnd : (refs.map Prod.fst).Nodup) :
    lookupFile (fsRemove refs p) p = none := by
  induction refs with
  | nil => simp [fsRemove, lookupFile]
  | cons e r ih =>
    obtain ⟨k, w⟩ := e
    simp only [List.map_cons, List.nodup_cons] at hnd
    by_cases h : k = p
    · subst h
      simp only [fsRemove, if_pos rfl]
      exact lookupFile_eq_none_of_not_mem r k hnd.1
    · simp [fsRemove, h, lookupFile, ih hnd.2]

theorem lookupFile_fsRemove_ne (refs : Refs) (p q : Str) (h : q ≠ p) :
    lookupFile (fsRemove refs p) q = lookupFile refs q := by
  induction refs with
  | nil => simp [fsRemove, lookupFile]
  | cons e r ih =>
    obtain ⟨k, w⟩ := e
    by_cases he : k = p
    · subst he
      simp [fsRemove, lookupFile, (show ¬k = q from fun hh => h hh.symm)]
    · by_cases hq : k = q
      · subst hq
        simp [fsRemove, he, lookupFile]
      · simp [fsRemove, he, lookupFile, hq, ih]

/-- A string starting with the symbolic marker is non-empty, hence truthy. -/
theorem pyTruthy_of_marker {s : Str} (h : strStarts refMarker s = true) :
    pyTruthy (some s) = true := by
  cases s with
  | nil => exact absurd h (by decide)
  | cons c t => simp [pyTruthy]

/-- Stepping `_get_ref_internal` on a missing ref file. -/
theorem getRefInternal_missing {fuel : Nat} {refs : Refs} {ref : Str} {deref : Bool}
    (h : lookupFile refs ref = none) :
    getRefInternal (fuel + 1) refs ref deref = some (ref, ⟨false, none⟩) := by
  simp [getRefInternal, h, pyTruthy]

/-- Stepping `_get_ref_internal` on a direct (non-symbolic) ref file. -/
theorem getRefInternal_direct {fuel : Nat} {refs : Refs} {ref : Str} {deref : Bool} {c : Str}
    (h : lookupFile refs ref = some c)
    (hs : strStarts refMarker (pyStrip c) = false) :
    getRefInternal (fuel + 1) refs ref deref = some (ref, ⟨false, some (pyStrip c)⟩) := by
  simp [getRefInternal, h, hs]

/-- Stepping `_get_ref_internal` on a symbolic ref file with `deref=True`. -/
theorem getRefInternal_symbolic {fuel : Nat} {refs : Refs} {ref : Str} {c : Str}
    (h : lookupFile refs ref = some c)
    (hs : strStarts refMarker (pyStrip c) = true) :
    getRefInternal (fuel + 1) refs ref true =
      getRefInternal fuel refs (pyStrip (afterFirst ':' (pyStrip c))) true := by
  simp [getRefInternal, h, hs, pyTruthy_of_marker hs]

/-- Stepping `_get_ref_internal` on a symbolic ref file with `deref=False`. -/
theorem getRefInternal_symbolic_noderef {fuel : Nat} {refs : Refs} {ref : Str} {c : Str}
    (h : lookupFile refs ref = some c)
    (hs : strStarts refMarker (pyStrip c) = true) :
    getRefInternal (fuel + 1) refs ref false =
      some (ref, ⟨true, some (pyStrip (afterFirst ':' (pyStrip c)))⟩) := by
  simp [getRefInternal, h, hs, pyTruthy_of_marker hs]

theorem update_ref_eq {fuel : Nat} {refs : Refs} {ref : Str} {v : RefValue} {deref : Bool}
    {name : Str} {rv : RefValue}
    (h : getRefInternal fuel refs ref deref = some (name, rv))
    (hv : pyTruthy v.value = true) :
    update_ref fuel refs ref v deref =
      some (fsWrite refs name
        (if v.symbolic then refMarker ++ v.value.getD [] else v.value.getD [])) := by
  simp [update_ref, h, hv]

theorem delete_ref_eq {fuel : Nat} {refs : Refs} {ref : Str} {deref : Bool}
    {name : Str} {rv : RefValue}
    (h : getRefInternal fuel refs ref deref = some (name, rv))
    (hex : (lookupFile refs name).isSome) :
    delete_ref fuel refs ref deref = some (fsRemove refs name) := by
  simp [delete_ref, h, hex]

/-- C7: after `update_ref` writes `HEAD` as a symbolic ref to
`refs/heads/main` and then writes a direct commit id while `HEAD` is
symbolic (`update_ref` with `deref=True` overwrites the final ref of the
chain, `refs/heads/main`), `get_ref(HEAD, deref=True)` returns the direct
id while `get_ref(HEAD, deref=False)` still returns the symbolic pointer
to `refs/heads/main`. -/
theorem spec_c7_symbolic_resolution (refs0 : Refs) (oid : Str) (fuel : Nat)
    (h0 : lookupFile refs0 HEAD = none)
    (h1 : lookupFile refs0 mainRef = none)
    (ho1 : oid ≠ [])
    (ho2 : pyStrip oid = oid)
    (ho3 : strStarts refMarker oid = false) :
    ∃ refs1 refs2,
      update_ref (fuel + 1) refs0 HEAD ⟨true, some mainRef⟩ true = some refs1 ∧
      update_ref (fuel + 2) refs1 HEAD ⟨false, some oid⟩ true = some refs2 ∧
      get_ref (fuel + 2) refs2 HEAD true = some ⟨false, some oid⟩ ∧
      get_ref (fuel + 1) refs2 HEAD false = some ⟨true, some mainRef⟩ := by
  have hne : mainRef ≠ HEAD := by decide
  have hne' : HEAD ≠ mainRef := by decide
  have hsym : strStarts refMarker (pyStrip (refMarker ++ mainRef)) = true := by decide
  have htgt : pyStrip (afterFirst ':' (pyStrip (refMarker ++ mainRef))) = mainRef := by decide
  refine ⟨fsWrite refs0 HEAD (refMarker ++ mainRef),
    fsWrite (fsWrite refs0 HEAD (refMarker ++ mainRef)) mainRef oid, ?_, ?_, ?_, ?_⟩
  · rw [update_ref_eq (getRefInternal_missing h0) (by decide)]
    rfl
  · have hl : lookupFile (fsWrite refs0 HEAD (refMarker ++ mainRef)) HEAD =
        some (refMarker ++ mainRef) := lookupFile_fsWrite_self _ _ _
    have hl2 : lookupFile (fsWrite refs0 HEAD (refMarker ++ mainRef)) mainRef = none := by
      rw [lookupFile_fsWrite_ne _ _ _ _ hne]
      exact h1
    show update_ref (fuel + 1 + 1) _ _ _ _ = _
    rw [update_ref_eq (v := ⟨false, some oid⟩)
      (by rw [getRefInternal_symbolic hl hsym, htgt]; exact getRefInternal_missing hl2)
      (by simp [pyTruthy, ho1])]
    rfl
  · have hl' : lookupFile (fsWrite (fsWrite refs0 HEAD (refMarker ++ mainRef)) mainRef oid)
        HEAD = some (refMarker ++ mainRef) := by
      rw [lookupFile_fsWrite_ne _ _ _ _ hne']
      exact lookupFile_fsWrite_self _ _ _
    have hlm : lookupFile (fsWrite (fsWrite refs0 HEAD (refMarker ++ mainRef)) mainRef oid)
        mainRef = some oid := lookupFile_fsWrite_self _ _ _
    have hs' : strStarts refMarker (pyStrip oid) = false := by
      rw [ho2]
      exact ho3
    show get_ref (fuel + 1 + 1) _ _ _ = _
    rw [get_ref, getRefInternal_symbolic hl' hsym, htgt, getRefInternal_direct hlm hs']
    simp [ho2]
  · have hl' : lookupFile (fsWrite (fsWrite refs0 HEAD (refMarker ++ mainRef)) mainRef oid)
        HEAD = some (refMarker ++ mainRef) := by
      rw [lookupFile_fsWrite_ne _ _ _ _ hne']
      exact lookupFile_fsWrite_self _ _ _
    rw [get_ref, getRefInternal_symbolic_noderef hl' hsym]
    simp [htgt]

/-- Witness for C7 at a concrete empty ref store and a 40-hex id. -/
theorem spec_c7_witness :
    ∃ refs1 refs2,
      update_ref 1 [] HEAD ⟨true, some mainRef⟩ true = some refs1 ∧
      update_ref 2 refs1 HEAD
        ⟨false, some ( "aaaaaaaaaaaaaaaaaaaaaaaaaaaaaaaaaaaaaaaa".data)⟩ true = some refs2 ∧
      get_ref 2 refs2 HEAD true =
        some ⟨false, some ( "aaaaaaaaaaaaaaaaaaaaaaaaaaaaaaaaaaaaaaaa".data)⟩ ∧
      get_ref 1 refs2 HEAD false = some ⟨true, some mainRef⟩ :=
  spec_c7_symbolic_resolution [] ( "aaaaaaaaaaaaaaaaaaaaaaaaaaaaaaaaaaaaaaaa".data) 0
    rfl rfl (by decide) (by decide) (by decide)

/-- C10: `get_ref` on a ref whose backing file does not exist returns the
absent value `(symbolic=False, value=None)` rather than failing, and a
symbolic chain ending at a missing ref resolves under `deref=True` to the
same absent value. -/
theorem spec_c10_missing_ref_absent :
    (∀ (fuel : Nat) (refs : Refs) (name : Str) (deref : Bool),
      lookupFile refs name = none →
      get_ref (fuel + 1) refs name deref = some ⟨false, none⟩) ∧
    (∀ (fuel : Nat) (refs : Refs) (name content target : Str),
      lookupFile refs name = some content →
      strStarts refMarker (pyStrip content) = true →
      pyStrip (afterFirst ':' (pyStrip content)) = target →
      lookupFile refs target = none →
      get_ref (fuel + 2) refs name true = some ⟨false, none⟩) := by
  constructor
  · intro fuel refs name deref h
    rw [get_ref, getRefInternal_missing h]
    rfl
  · intro fuel refs name content target h hsym htgt h2
    show get_ref (fuel + 1 + 1) _ _ _ = _
    rw [get_ref, getRefInternal_symbolic h hsym, htgt, getRefInternal_missing h2]
    rfl

/-- Witness for C10: a fresh store, and a chain `HEAD -> refs/heads/x`
with the branch file missing. -/
theorem spec_c10_witness :
    get_ref 1 [] HEAD true = some ⟨false, none⟩ ∧
    get_ref 2 [(HEAD, refMarker ++ ( "refs/heads/x".data))] HEAD true =
      some ⟨false, none⟩ :=
  ⟨spec_c10_missing_ref_absent.1 0 [] HEAD true rfl,
   spec_c10_missing_ref_absent.2 0 [(HEAD, refMarker ++ ( "refs/heads/x".data))]
     HEAD (refMarker ++ ( "refs/heads/x".data)) ( "refs/heads/x".data)
     (by decide) (by decide) (by decide) rfl⟩

/-- C4: `push_object` is supposed to copy the object into the store named
by the caller's `remote_git_dir` argument, but the body overwrites that
parameter with the literal `'/.ugit'`: the destination path is the same
whatever the caller passes, it is the fixed root path, and it is not the
store under the caller's argument.  (The copy is also unconditional: no
presence check is made at the destination.) -/
theorem spec_c4_push_object_bug :
    (∀ gd oid d1 d2 : Str, push_object_paths gd oid d1 = push_object_paths gd oid d2) ∧
    (push_object_paths ( ".ugit".data) aOid ( "/tmp/repo".data)).2 =
      ( "/.ugit/objects/".data) ++ aOid ∧
    (push_object_paths ( ".ugit".data) aOid ( "/tmp/repo".data)).2 ≠
      ( "/tmp/repo/.ugit/objects/".data) ++ aOid :=
  ⟨fun _ _ _ _ => rfl, by decide, by decide⟩

/-- C2: when the remote ref exists with value `R`, the local ref resolves
to a truthy `L`, and `is_ancestor_of(L, R)` is false, `push` raises the
non-fast-forward assertion; the error carries the remote store exactly as
it was passed in: the failure happens before any object copy or remote
ref update. -/
theorem spec_c2_non_fast_forward (fuel : Nat) (lo re : Repo) (refname R L : Str)
    (rrefs : List (Str × Str)) (rv : RefValue)
    (hr : getRemoteRefs fuel re = some rrefs)
    (hR : pyDictGet rrefs refname = some R)
    (hRt : R ≠ [])
    (hl : get_ref fuel lo.refs refname true = some rv)
    (hv : rv.value = some L)
    (hLt : L ≠ [])
    (ha : is_ancestor_of fuel lo.objects L R = some false) :
    push fuel lo re refname = .error (.nonFastForward, re) := by
  have hLt' : pyTruthy (some L) = true := by simp [pyTruthy, hLt]
  have hRt' : pyTruthy (some R) = true := by simp [pyTruthy, hRt]
  simp [push, hr, hl, hv, hR, hLt', hRt', ha]

/-- Witness for C2: local `master` at commit A (no parents), remote
`master` at an unrelated commit B, so A does not descend from B. -/
theorem spec_c2_witness :
    push 10 c2Local c2Remote masterRef = .error (.nonFastForward, c2Remote) :=
  spec_c2_non_fast_forward 10 c2Local c2Remote masterRef wCommitB wCommitA
    [(masterRef, wCommitB)] ⟨false, some wCommitA⟩
    (by decide) (by decide) (by decide) (by decide) rfl (by decide) (by decide)

/-- C3: pushing `refs/heads/master` to a remote that already holds the same
ref value and every reachable object (exactly the state the claim's
«second push» is about) transfers the whole reachable object set again
instead of nothing.  The cause is at `remote.py` line 36:
`filter(data.object_exists, remote_refs)` iterates the dict's *keys* (the
refnames) and tests them against the *local* object store, so
`known_remote_refs` is empty (third conjunct) although each remote ref
*value* is a stored commit (fourth conjunct), and the transfer set equals
the full reachable closure of the local ref (last conjunct) rather than
the claimed difference, which here is empty. -/
theorem spec_c3_push_transfer_bug :
    push 10 c2Local c2Local masterRef = .ok (c2Local, [wCommitA, wTreeOid]) ∧
    ([wCommitA, wTreeOid] : List Str) ≠ [] ∧
    (getRemoteRefs 10 c2Local).map
        (fun l => (l.map Prod.fst).filter (object_exists c2Local.objects)) = some [] ∧
    (getRemoteRefs 10 c2Local).map
        (fun l => (l.map Prod.snd).filter (object_exists c2Local.objects)) =
      some [wCommitA] ∧
    iter_objects_in_commits 10 c2Local.objects [wCommitA] = some [wCommitA, wTreeOid] :=
  ⟨by decide, by decide, by decide, by decide, by decide⟩

theorem pySplitlines_cons_nb (c : Char) (s : Str) (hc : isLineBreak c = false) :
    pySplitlines (c :: s) =
      match pySplitlines s with
      | [] => [[c]]
      | p :: r => (c :: p) :: r := by
  rw [pySplitlines.eq_def]
  dsimp only
  rw [if_neg (by simp [hc])]

theorem pySplitlines_cons_lb (c : Char) (s : Str) (hc : isLineBreak c = true)
    (hcr : c ≠ '\r') :
    pySplitlines (c :: s) = [] :: pySplitlines s := by
  rw [pySplitlines.eq_def]
  dsimp only
  rw [if_pos (by simp [hc]), if_neg (by simp [hcr])]

theorem noLB_append {a b : Str} (ha : noLB a) (hb : noLB b) : noLB (a ++ b) := by
  intro c hc
  rcases List.mem_append.1 hc with h | h
  · exact ha c h
  · exact hb c h

theorem noLB_cons {c : Char} {s : Str} (hc : isLineBreak c = false) (hs : noLB s) :
    noLB (c :: s) := by
  intro x hx
  rcases List.mem_cons.1 hx with h | h
  · exact h ▸ hc
  · exact hs x h

theorem noLB_of_hex {s : Str} (h : ∀ c ∈ s, isHexChar c = true) : noLB s := by
  intro c hc
  have hx := h c hc
  simp only [isHexChar, Bool.or_eq_true, decide_eq_true_eq] at hx
  have hn : 48 ≤ c.toNat ∧ c.toNat ≤ 57 ∨ 97 ≤ c.toNat ∧ c.toNat ≤ 102 := hx
  have hval : ∀ d : Char, c = d → c.toNat = d.toNat := fun d hd => hd ▸ rfl
  simp only [isLineBreak, Bool.or_eq_false_iff, decide_eq_false_iff_not]
  refine ⟨⟨⟨⟨⟨⟨⟨⟨⟨?_, ?_⟩, ?_⟩, ?_⟩, ?_⟩, ?_⟩, ?_⟩, ?_⟩, ?_⟩, ?_⟩ <;>
    (intro he; have := hval _ he; simp at this; omega)

/-- Splitting off one clean `'\n'`-terminated line. -/
theorem pySplitlines_noLB_append (l : Str) (hl : noLB l) (rest : Str) :
    pySplitlines (l ++ '\n' :: rest) = l :: pySplitlines rest := by
  induction l with
  | nil =>
    rw [List.nil_append, pySplitlines_cons_lb '\n' rest (by decide) (by decide)]
  | cons c t ih =>
    have hc : isLineBreak c = false := hl c (List.mem_cons_self _ _)
    have ht : noLB t := fun x hx => hl x (List.mem_cons_of_mem _ hx)
    rw [List.cons_append, pySplitlines_cons_nb c _ hc, ih ht]

theorem pySplitlines_parentLines (ps : List Str) (rest : Str)
    (hps : ∀ p ∈ ps, noLB p) :
    pySplitlines (parentLines ps ++ rest) =
      ps.map (fun p => PARENT_T ++ ' ' :: p) ++ pySplitlines rest := by
  induction ps with
  | nil => simp [parentLines]
  | cons p r ih =>
    have hp : noLB p := hps p (List.mem_cons_self _ _)
    have hr : ∀ q ∈ r, noLB q := fun q hq => hps q (List.mem_cons_of_mem _ hq)
    have e : parentLines (p :: r) ++ rest =
        (PARENT_T ++ ' ' :: p) ++ '\n' :: (parentLines r ++ rest) := by
      simp [parentLines, List.append_assoc, List.cons_append]
    rw [e, pySplitlines_noLB_append _
      (noLB_append (by decide) (noLB_cons (by decide) hp)) _, ih hr]
    simp

theorem pySplitOnce_before (sep : Char) (w v : Str) (h : sep ∉ w) :
    pySplitOnce sep (w ++ sep :: v) = some (w, v) := by
  induction w with
  | nil => simp [pySplitOnce]
  | cons c t ih =>
    simp only [List.mem_cons, not_or] at h
    simp [pySplitOnce, (show ¬c = sep from fun hh => h.1 hh.symm), ih h.2]

theorem takeWhile_hdrs (hs rest : List Str) (h : ∀ l ∈ hs, l ≠ []) :
    ((hs ++ [] :: rest).takeWhile (fun l => !l.isEmpty)) = hs := by
  induction hs with
  | nil => simp [List.takeWhile]
  | cons a t ih =>
    have ha : a ≠ [] := h a (List.mem_cons_self _ _)
    have ht : ∀ l ∈ t, l ≠ [] := fun l hl => h l (List.mem_cons_of_mem _ hl)
    simp only [List.cons_append, List.takeWhile_cons]
    rw [if_pos (by simpa using ha)]
    rw [ih ht]

theorem hdrStep_tree (acc : Option Str × List Str) (t : Str) :
    hdrStep acc (TREE_T ++ ' ' :: t) = some (some t, acc.2) := by
  rw [hdrStep, pySplitOnce_before ' ' TREE_T t (by decide)]
  simp

theorem hdrStep_parent (acc : Option Str × List Str) (p : Str) :
    hdrStep acc (PARENT_T ++ ' ' :: p) = some (acc.1, acc.2 ++ [p]) := by
  rw [hdrStep, pySplitOnce_before ' ' PARENT_T p (by decide)]
  simp [show ¬(PARENT_T = TREE_T) by decide]

theorem foldlM_hdr_parents (ps : List Str) (t0 : Option Str) (acc0 : List Str) :
    (ps.map (fun p => PARENT_T ++ ' ' :: p)).foldlM hdrStep (t0, acc0) =
      some (t0, acc0 ++ ps) := by
  induction ps generalizing acc0 with
  | nil => simp [List.foldlM]
  | cons p r ih =>
    simp only [List.map_cons, List.foldlM_cons, hdrStep_parent]
    exact (ih (acc0 ++ [p])).trans (by simp)

/-- Parsing the exact payload `commit` writes: the tree id and parents are
recovered, and the message comes back as the lines of `msg ++ "\n"`
re-joined with `'\n'`. -/
theorem parseCommit_payload (toid : Str) (ps : List Str) (msg : Str)
    (htoid : noLB toid) (hps : ∀ p ∈ ps, noLB p) :
    parseCommit (commitPayload toid ps msg) =
      some ⟨toid, ps, joinSep '\n' (pySplitlines (msg ++ ['\n']))⟩ := by
  have e1 : commitPayload toid ps msg =
      (TREE_T ++ ' ' :: toid) ++ '\n' :: (parentLines ps ++ '\n' :: (msg ++ ['\n'])) := by
    simp [commitPayload, List.append_assoc, List.cons_append]
  have hlines : pySplitlines (commitPayload toid ps msg) =
      (TREE_T ++ ' ' :: toid) :: (ps.map (fun p => PARENT_T ++ ' ' :: p) ++
        [] :: pySplitlines (msg ++ ['\n'])) := by
    rw [e1, pySplitlines_noLB_append _ (noLB_append (by decide) (noLB_cons (by decide) htoid)) _,
      pySplitlines_parentLines ps _ hps,
      pySplitlines_cons_lb '\n' _ (by decide) (by decide)]
  have hhdrs : ((TREE_T ++ ' ' :: toid) :: (ps.map (fun p => PARENT_T ++ ' ' :: p) ++
        [] :: pySplitlines (msg ++ ['\n']))).takeWhile (fun l => !l.isEmpty) =
      (TREE_T ++ ' ' :: toid) :: ps.map (fun p => PARENT_T ++ ' ' :: p) := by
    have := takeWhile_hdrs ((TREE_T ++ ' ' :: toid) :: ps.map (fun p => PARENT_T ++ ' ' :: p))
      (pySplitlines (msg ++ ['\n'])) ?_
    · rw [List.cons_append] at this
      exact this
    · intro l hl
      rcases List.mem_cons.1 hl with h | h
      · subst h
        simp
      · obtain ⟨p, _, rfl⟩ := List.mem_map.1 h
        simp
  rw [parseCommit, hlines, hhdrs]
  have hdrop : (((TREE_T ++ ' ' :: toid) :: (ps.map (fun p => PARENT_T ++ ' ' :: p) ++
        [] :: pySplitlines (msg ++ ['\n']))).drop
        ((TREE_T ++ ' ' :: toid) :: ps.map (fun p => PARENT_T ++ ' ' :: p)).length).drop 1 =
      pySplitlines (msg ++ ['\n']) := by
    have : ((TREE_T ++ ' ' :: toid) :: (ps.map (fun p => PARENT_T ++ ' ' :: p) ++
        [] :: pySplitlines (msg ++ ['\n']))) =
        ((TREE_T ++ ' ' :: toid) :: ps.map (fun p => PARENT_T ++ ' ' :: p)) ++
          ([] :: pySplitlines (msg ++ ['\n'])) := by simp
    rw [this, List.drop_left]
    rfl
  rw [hdrop]
  simp only [List.foldlM_cons, hdrStep_tree]
  simp [foldlM_hdr_parents ps (some toid) []]

theorem pySplit_ne_nil (sep : Char) (s : Str) : pySplit sep s ≠ [] := by
  cases s with
  | nil => simp [pySplit]
  | cons c t =>
    simp only [pySplit]
    by_cases h : c = sep
    · simp [h]
    · simp only [if_neg h]
      cases pySplit sep t <;> simp

/-- For a message whose line breaks are all `'\n'`, `splitlines` of the
message with its appended newline is exactly `split('\n')`. -/
theorem pySplitlines_nlOnly (msg : Str) (h : nlOnly msg) :
    pySplitlines (msg ++ ['\n']) = pySplit '\n' msg := by
  induction msg with
  | nil => decide
  | cons c s ih =>
    have hs : nlOnly s := fun x hx => h x (List.mem_cons_of_mem _ hx)
    by_cases hc : c = '\n'
    · subst hc
      rw [List.cons_append, pySplitlines_cons_lb '\n' _ (by decide) (by decide), ih hs]
      simp [pySplit]
    · have hlb : isLineBreak c = false := by
        cases hlb' : isLineBreak c
        · rfl
        · exact absurd (h c (List.mem_cons_self _ _) hlb') hc
      rw [List.cons_append, pySplitlines_cons_nb c _ hlb, ih hs]
      rcases hsplit : pySplit '\n' s with _ | ⟨p, r⟩
      · exact absurd hsplit (pySplit_ne_nil '\n' s)
      · simp [pySplit, hc, hsplit]

theorem joinSep_pySplit (sep : Char) (s : Str) : joinSep sep (pySplit sep s) = s := by
  induction s with
  | nil => rfl
  | cons c t ih =>
    by_cases hc : c = sep
    · subst hc
      rw [show pySplit c (c :: t) = [] :: pySplit c t by simp [pySplit]]
      rcases hsplit : pySplit c t with _ | ⟨p, r⟩
      · exact absurd hsplit (pySplit_ne_nil c t)
      · rw [hsplit] at ih
        rw [joinSep, List.nil_append, ih]
    · rcases hsplit : pySplit sep t with _ | ⟨p, r⟩
      · exact absurd hsplit (pySplit_ne_nil sep t)
      · rw [show pySplit sep (c :: t) = (c :: p) :: r by
          simp only [pySplit, if_neg hc, hsplit]]
        rw [hsplit] at ih
        cases r with
        | nil =>
          rw [joinSep] at ih ⊢
          rw [ih]
        | cons r0 r1 =>
          rw [joinSep] at ih ⊢
          rw [List.cons_append, ih]

theorem getRefInternal_false_eq (fuel : Nat) (refs : Refs) (ref : Str) :
    ∃ rv, getRefInternal (fuel + 1) refs ref false = some (ref, rv) := by
  simp only [getRefInternal]
  by_cases h : (pyTruthy ((lookupFile refs ref).map pyStrip) &&
      strStarts refMarker (((lookupFile refs ref).map pyStrip).getD [])) = true
  · rw [if_pos h]
    exact ⟨_, rfl⟩
  · rw [if_neg h]
    exact ⟨_, rfl⟩

theorem delete_ref_false_eq {fuel : Nat} {refs : Refs} {ref : Str} {out : Refs}
    (h : delete_ref fuel refs ref false = some out) : out = fsRemove refs ref := by
  cases fuel with
  | zero => simp [delete_ref, getRefInternal] at h
  | succ f =>
    obtain ⟨rv, hrv⟩ := getRefInternal_false_eq f refs ref
    rw [delete_ref, hrv] at h
    simp only [Option.bind_eq_bind, Option.some_bind] at h
    by_cases hl : (lookupFile refs ref).isSome = true
    · rw [if_pos hl] at h
      exact (Option.some.inj h).symm
    · rw [if_neg hl] at h
      exact Option.noConfusion h

theorem pyTruthy_some_of_ne {s : Str} (h : s ≠ []) : pyTruthy (some s) = true := by
  cases s with
  | nil => exact absurd rfl h
  | cons a t => simp [pyTruthy]

theorem update_ref_inv {fuel : Nat} {refs : Refs} {ref : Str} {v : RefValue} {out : Refs}
    (h : update_ref fuel refs ref v true = some out)
    (hv : pyTruthy v.value = true) (hsym : v.symbolic = false) :
    ∃ nm rv2, getRefInternal fuel refs ref true = some (nm, rv2) ∧
      out = fsWrite refs nm (v.value.getD []) := by
  rw [update_ref] at h
  simp only [Option.bind_eq_bind] at h
  rw [Option.bind_eq_some] at h
  obtain ⟨⟨nm, rv2⟩, hgri, hw⟩ := h
  refine ⟨nm, rv2, hgri, ?_⟩
  rw [hv] at hw
  simp only [if_pos rfl, hsym, Bool.false_eq_true, if_false] at hw
  exact (Option.some.inj hw).symm

theorem commit_spec (fuel : Nat) (st : Repo) (msg : Str) (coid : Str) (st' : Repo)
    (d : PDict) (hv mv : RefValue)
    (hd : buildTree st.index = some d)
    (hH : get_ref fuel st.refs HEAD true = some hv)
    (hM : get_ref fuel st.refs MERGE_HEAD true = some mv)
    (hc : commit fuel st msg = some (coid, st')) :
    coid = hash_object (commitPayload (writeTreeDir d) (optPart hv ++ optPart mv) msg)
        COMMIT_T ∧
    coid ∈ st'.objects ∧
    ∃ nm rv2, getRefInternal fuel
        (if pyTruthy mv.value then fsRemove st.refs MERGE_HEAD else st.refs) HEAD true =
        some (nm, rv2) ∧
      st'.refs = fsWrite
        (if pyTruthy mv.value then fsRemove st.refs MERGE_HEAD else st.refs) nm coid := by
  simp only [commit, hd, hH, hM, Option.bind_eq_bind, Option.some_bind] at hc
  have hne : ∀ content : Str, hash_object content COMMIT_T ≠ [] := by
    intro content hnil
    have := hexEncode_length (COMMIT_T ++ '\x00' :: content)
    rw [show hexEncode (COMMIT_T ++ '\x00' :: content) = hash_object content COMMIT_T from rfl,
      hnil] at this
    simp at this
  by_cases hmv : pyTruthy mv.value = true
  · rw [if_pos hmv] at hc
    rw [Option.bind_eq_some] at hc
    obtain ⟨refs', hdel, hc2⟩ := hc
    rw [Option.bind_eq_some] at hc2
    obtain ⟨refs2, hupd, hc3⟩ := hc2
    have hinj := Option.some.inj hc3
    obtain ⟨hcoid, hst⟩ := Prod.mk.injEq .. ▸ hinj
    have hcontent : (if pyTruthy hv.value = true then
          TREE_T ++ ' ' :: writeTreeDir d ++ ['\n'] ++ PARENT_T ++ ' ' :: hv.value.getD [] ++ ['\n']
        else TREE_T ++ ' ' :: writeTreeDir d ++ ['\n']) ++ PARENT_T ++
          ' ' :: mv.value.getD [] ++ ['\n'] ++ '\n' :: msg ++ ['\n'] =
        commitPayload (writeTreeDir d) (optPart hv ++ optPart mv) msg := by
      by_cases hhv : pyTruthy hv.value = true <;>
        simp [commitPayload, parentLines, optPart, hmv, hhv, List.append_assoc]
    rw [hcontent] at hcoid hupd hst
    have hrefs' := delete_ref_false_eq hdel
    subst hrefs'
    obtain ⟨nm, rv2, hgri, hout⟩ := update_ref_inv hupd
      (pyTruthy_some_of_ne (hne _)) rfl
    refine ⟨hcoid.symm, ?_, ?_⟩
    · rw [← hst]
      rw [← hcoid]
      exact List.mem_cons_self _ _
    · rw [if_pos hmv]
      refine ⟨nm, rv2, hgri, ?_⟩
      rw [← hst]
      show refs2 = _
      have hout' : refs2 = fsWrite (fsRemove st.refs MERGE_HEAD) nm
          (hash_object (commitPayload (writeTreeDir d) (optPart hv ++ optPart mv) msg)
            COMMIT_T) := hout
      rw [hout', hcoid]
  · rw [if_neg hmv] at hc
    rw [Option.bind_eq_some] at hc
    obtain ⟨refs2, hupd, hc3⟩ := hc
    have hinj := Option.some.inj hc3
    obtain ⟨hcoid, hst⟩ := Prod.mk.injEq .. ▸ hinj
    have hcontent : (if pyTruthy hv.value = true then
          TREE_T ++ ' ' :: writeTreeDir d ++ ['\n'] ++ PARENT_T ++ ' ' :: hv.value.getD [] ++ ['\n']
        else TREE_T ++ ' ' :: writeTreeDir d ++ ['\n']) ++ '\n' :: msg ++ ['\n'] =
        commitPayload (writeTreeDir d) (optPart hv ++ optPart mv) msg := by
      by_cases hhv : pyTruthy hv.value = true <;>
        simp [commitPayload, parentLines, optPart, hmv, hhv, List.append_assoc]
    rw [hcontent] at hcoid hupd hst
    obtain ⟨nm, rv2, hgri, hout⟩ := update_ref_inv hupd
      (pyTruthy_some_of_ne (hne _)) rfl
    refine ⟨hcoid.symm, ?_, ?_⟩
    · rw [← hst]
      rw [← hcoid]
      exact List.mem_cons_self _ _
    · rw [if_neg hmv]
      refine ⟨nm, rv2, hgri, ?_⟩
      rw [← hst]
      show refs2 = _
      have hout' : refs2 = fsWrite st.refs nm
          (hash_object (commitPayload (writeTreeDir d) (optPart hv ++ optPart mv) msg)
            COMMIT_T) := hout
      rw [hout', hcoid]

theorem noLB_hash_object (dat t : Str) : noLB (hash_object dat t) :=
  noLB_of_hex (hexEncode_all_hex _)

theorem noLB_writeTreeDir (d : PDict) : noLB (writeTreeDir d) := by
  rw [writeTreeDir]
  exact noLB_hash_object _ _

/-- The commit object written by `commit`, read back through `get_commit`:
tree id and parents exactly as assembled, the message as the lines of
`msg ++ "\n"` re-joined with `'\n'`. -/
theorem commit_get_commit (fuel : Nat) (st : Repo) (msg : Str) (coid : Str) (st' : Repo)
    (d : PDict) (hv mv : RefValue)
    (hd : buildTree st.index = some d)
    (hH : get_ref fuel st.refs HEAD true = some hv)
    (hM : get_ref fuel st.refs MERGE_HEAD true = some mv)
    (hcleanH : pyTruthy hv.value = true → noLB (hv.value.getD []))
    (hcleanM : pyTruthy mv.value = true → noLB (mv.value.getD []))
    (hc : commit fuel st msg = some (coid, st')) :
    get_commit st'.objects coid =
      some ⟨writeTreeDir d, optPart hv ++ optPart mv,
        joinSep '\n' (pySplitlines (msg ++ ['\n']))⟩ := by
  obtain ⟨hcoid, hmem, _⟩ := commit_spec fuel st msg coid st' d hv mv hd hH hM hc
  have hps : ∀ p ∈ optPart hv ++ optPart mv, noLB p := by
    intro p hp
    rcases List.mem_append.1 hp with h | h
    · rw [optPart] at h
      by_cases hhv : pyTruthy hv.value = true
      · rw [if_pos hhv] at h
        rw [List.mem_singleton.1 h]
        exact hcleanH hhv
      · rw [if_neg hhv] at h
        cases h
    · rw [optPart] at h
      by_cases hmv : pyTruthy mv.value = true
      · rw [if_pos hmv] at h
        rw [List.mem_singleton.1 h]
        exact hcleanM hmv
      · rw [if_neg hmv] at h
        cases h
  rw [get_commit, get_object, if_pos hmem, hcoid,
    decodeObj_hash_object _ COMMIT_T (by decide)]
  dsimp only
  rw [if_pos rfl]
  simp only [Option.bind_eq_bind, Option.some_bind]
  exact parseCommit_payload (writeTreeDir d) (optPart hv ++ optPart mv) msg
    (noLB_writeTreeDir d) hps

/-- C6: a commit records as parents exactly the truthy HEAD value followed
by the truthy MERGE_HEAD value ([HEAD, MERGE_HEAD] when both are set, [HEAD]
when only HEAD is, [] when neither is), and a truthy MERGE_HEAD's ref file
is deleted by the call. -/
theorem spec_c6_commit_parents (fuel : Nat) (st : Repo) (msg : Str) (coid : Str)
    (st' : Repo) (d : PDict) (hv mv : RefValue)
    (hd : buildTree st.index = some d)
    (hH : get_ref fuel st.refs HEAD true = some hv)
    (hM : get_ref fuel st.refs MERGE_HEAD true = some mv)
    (hcleanH : pyTruthy hv.value = true → noLB (hv.value.getD []))
    (hcleanM : pyTruthy mv.value = true → noLB (mv.value.getD []))
    (hnd : (st.refs.map Prod.fst).Nodup)
    (hname : ∀ nm rv2, getRefInternal fuel
        (if pyTruthy mv.value = true then fsRemove st.refs MERGE_HEAD else st.refs)
        HEAD true = some (nm, rv2) → nm ≠ MERGE_HEAD)
    (hc : commit fuel st msg = some (coid, st')) :
    (∃ c, get_commit st'.objects coid = some c ∧
      c.parents = optPart hv ++ optPart mv ∧
      (pyTruthy hv.value = true → pyTruthy mv.value = true →
        c.parents = [hv.value.getD [], mv.value.getD []])) ∧
    (pyTruthy mv.value = true → lookupFile st'.refs MERGE_HEAD = none) := by
  obtain ⟨hcoid, hmem, nm, rv2, hgri, hrefs⟩ :=
    commit_spec fuel st msg coid st' d hv mv hd hH hM hc
  constructor
  · refine ⟨_, commit_get_commit fuel st msg coid st' d hv mv hd hH hM hcleanH hcleanM hc,
      rfl, ?_⟩
    intro hhv hmv
    simp [optPart, hhv, hmv]
  · intro hmv
    have hnm : nm ≠ MERGE_HEAD := hname nm rv2 hgri
    rw [hrefs, if_pos hmv, lookupFile_fsWrite_ne _ _ _ _ (fun h => hnm h.symm)]
    exact lookupFile_fsRemove_self st.refs MERGE_HEAD hnd

/-- Witness for C6 at a store with both HEAD and MERGE_HEAD set. -/
theorem spec_c6_witness :
    (∃ c, get_commit c6St'.objects c6Coid = some c ∧
      c.parents = optPart ⟨false, some aOid⟩ ++ optPart ⟨false, some bOid⟩ ∧
      (pyTruthy (some aOid) = true → pyTruthy (some bOid) = true →
        c.parents = [aOid, bOid])) ∧
    (pyTruthy (some bOid) = true → lookupFile c6St'.refs MERGE_HEAD = none) :=
  spec_c6_commit_parents 5 c6St ( "m".data) c6Coid c6St' .nil ⟨false, some aOid⟩
    ⟨false, some bOid⟩ (by decide) (by decide) (by decide)
    (fun _ => by decide) (fun _ => by decide) (by decide)
    (fun nm rv2 h => by
      have e : getRefInternal 5
          (if pyTruthy (RefValue.mk false (some bOid)).value = true
           then fsRemove c6St.refs MERGE_HEAD else c6St.refs) HEAD true =
          some (HEAD, ⟨false, some aOid⟩) := by decide
      rw [e] at h
      obtain ⟨h1, _⟩ := Prod.mk.injEq .. ▸ (Option.some.inj h)
      rw [← h1]
      decide)
    (by decide)

/-- C9 counterexample: the claim says the message is serialized verbatim
with no trailing processing and parses back identically.  For the message
`"a\rb"` the written object carries an appended newline and `get_commit`
returns `"a\nb"`: the carriage return is rewritten by the
`splitlines`/join round trip. -/
theorem spec_c9_counterexample :
    commit 5 ⟨[], [], []⟩ ( "a\rb".data) =
      some (c9Coid, ⟨[(HEAD, c9Coid)], [c9Coid, wTreeOid], []⟩) ∧
    (get_commit [c9Coid, wTreeOid] c9Coid).map Commit.message = some ( "a\nb".data) ∧
    ( "a\nb".data) ≠ ( "a\rb".data) :=
  ⟨by decide, by decide, by decide⟩

/-- C9 amended: the commit object is serialized as the tree header line,
the parent lines, a blank line, then the message with exactly one newline
appended (not verbatim); `get_commit` returns the identical message for
every message whose line breaks are all `'\n'`. -/
theorem spec_c9_serialization_amended (fuel : Nat) (st : Repo) (msg : Str)
    (coid : Str) (st' : Repo) (d : PDict) (hv mv : RefValue)
    (hd : buildTree st.index = some d)
    (hH : get_ref fuel st.refs HEAD true = some hv)
    (hM : get_ref fuel st.refs MERGE_HEAD true = some mv)
    (hcleanH : pyTruthy hv.value = true → noLB (hv.value.getD []))
    (hcleanM : pyTruthy mv.value = true → noLB (mv.value.getD []))
    (hmsg : nlOnly msg)
    (hc : commit fuel st msg = some (coid, st')) :
    decodeObj coid = some (COMMIT_T, TREE_T ++ ' ' :: writeTreeDir d ++ ['\n'] ++
      parentLines (optPart hv ++ optPart mv) ++ '\n' :: msg ++ ['\n']) ∧
    ∃ c, get_commit st'.objects coid = some c ∧ c.message = msg := by
  obtain ⟨hcoid, hmem, _⟩ := commit_spec fuel st msg coid st' d hv mv hd hH hM hc
  constructor
  · rw [hcoid, decodeObj_hash_object _ COMMIT_T (by decide)]
    rfl
  · refine ⟨_, commit_get_commit fuel st msg coid st' d hv mv hd hH hM hcleanH hcleanM hc, ?_⟩
    show joinSep '\n' (pySplitlines (msg ++ ['\n'])) = msg
    rw [pySplitlines_nlOnly msg hmsg, joinSep_pySplit]

/-- Witness for amended C9: a two-line message round-trips. -/
theorem spec_c9_witness :
    decodeObj c9wCoid = some (COMMIT_T, TREE_T ++ ' ' :: writeTreeDir PDict.nil ++ ['\n'] ++
      parentLines (optPart ⟨false, none⟩ ++ optPart ⟨false, none⟩) ++
      '\n' :: ( "a\nb".data) ++ ['\n']) ∧
    ∃ c, get_commit (Repo.mk [(HEAD, c9wCoid)] [c9wCoid, wTreeOid] []).objects c9wCoid =
      some c ∧ c.message = ( "a\nb".data) :=
  spec_c9_serialization_amended 5 ⟨[], [], []⟩ ( "a\nb".data) c9wCoid
    ⟨[(HEAD, c9wCoid)], [c9wCoid, wTreeOid], []⟩ PDict.nil ⟨false, none⟩ ⟨false, none⟩
    (by decide) (by decide) (by decide) (by decide) (by decide) (by decide) (by decide)

/-- Writing a clean direct value at the final name of a deref chain makes
the chain resolve to that value (intermediate symbolic files are untouched,
and the final file now holds the value). -/
theorem getRefInternal_fsWrite_final (v : Str)
    (hv1 : pyStrip v = v) (hv2 : strStarts refMarker v = false) :
    ∀ (fuel : Nat) (refs : Refs) (ref nm : Str) (rv : RefValue),
    getRefInternal fuel refs ref true = some (nm, rv) →
    getRefInternal fuel (fsWrite refs nm v) ref true = some (nm, ⟨false, some v⟩) := by
  intro fuel
  induction fuel with
  | zero =>
    intro refs ref nm rv h
    exact Option.noConfusion h
  | succ f ih =>
    intro refs ref nm rv h
    by_cases hrn : ref = nm
    · subst hrn
      rw [getRefInternal_direct (lookupFile_fsWrite_self refs ref v)
        (by rw [hv1]; exact hv2), hv1]
    · cases hl : lookupFile refs ref with
      | none =>
        rw [getRefInternal_missing hl] at h
        obtain ⟨h1, _⟩ := Prod.mk.injEq .. ▸ Option.some.inj h
        exact absurd h1 hrn
      | some c =>
        by_cases hsym : strStarts refMarker (pyStrip c) = true
        · rw [getRefInternal_symbolic hl hsym] at h
          have hl' : lookupFile (fsWrite refs nm v) ref = some c := by
            rw [lookupFile_fsWrite_ne _ _ _ _ hrn]
            exact hl
          rw [getRefInternal_symbolic hl' hsym]
          exact ih _ _ _ _ h
        · rw [getRefInternal_direct hl (eq_false_of_ne_true hsym)] at h
          obtain ⟨h1, _⟩ := Prod.mk.injEq .. ▸ Option.some.inj h
          exact absurd h1 hrn

/-- C5: when HEAD resolves to a commit `H` and `get_merge_base(other, H)`
is `H` itself, `merge` takes the fast-forward path: MERGE_HEAD is left
untouched, the index is replaced wholesale by `other`'s tree, and HEAD now
resolves to `other` (no merge commit involved). -/
theorem spec_c5_fast_forward
    (mt : List (Str × Str) → List (Str × Str) → List (Str × Str) → List (Str × Str))
    (fuel : Nat) (st : Repo) (other H : Str) (st' : Repo) (hv : RefValue)
    (c_other : Commit)
    (hH : get_ref fuel st.refs HEAD true = some hv)
    (hval : hv.value = some H) (hHt : H ≠ [])
    (hmb : get_merge_base fuel st.objects other H = some (some H))
    (hco : get_commit st.objects other = some c_other)
    (ho1 : pyStrip other = other) (ho2 : strStarts refMarker other = false)
    (ho3 : other ≠ [])
    (hname : ∀ nm rv2, getRefInternal fuel st.refs HEAD true = some (nm, rv2) →
      nm ≠ MERGE_HEAD)
    (hm : merge mt fuel st other = some st') :
    lookupFile st'.refs MERGE_HEAD = lookupFile st.refs MERGE_HEAD ∧
    (∃ idx, get_tree fuel st.objects c_other.tree [] = some idx ∧ st'.index = idx) ∧
    get_ref fuel st'.refs HEAD true = some ⟨false, some other⟩ := by
  rw [merge] at hm
  simp only [hH, Option.bind_eq_bind, Option.some_bind] at hm
  rw [hval] at hm
  rw [if_pos (pyTruthy_some_of_ne hHt)] at hm
  simp only [Option.getD_some] at hm
  rw [hmb] at hm
  simp only [Option.some_bind] at hm
  rw [hco] at hm
  simp only [Option.some_bind] at hm
  rw [if_pos trivial] at hm
  rw [read_tree] at hm
  rw [Option.bind_eq_some] at hm
  obtain ⟨st1, hst1, hm2⟩ := hm
  rw [Option.map_eq_some'] at hst1
  obtain ⟨idx, hidx, hst1e⟩ := hst1
  rw [Option.bind_eq_some] at hm2
  obtain ⟨refs2, hupd, hout⟩ := hm2
  have hst1refs : st1.refs = st.refs := by rw [← hst1e]
  have hst1idx : st1.index = idx := by rw [← hst1e]
  rw [hst1refs] at hupd
  obtain ⟨nm, rv2, hgri, hrefs2⟩ := update_ref_inv hupd (pyTruthy_some_of_ne ho3) rfl
  have hnm : nm ≠ MERGE_HEAD := hname nm rv2 hgri
  have hst' : st' = { st1 with refs := refs2 } := (Option.some.inj hout).symm
  refine ⟨?_, ⟨idx, hidx, ?_⟩, ?_⟩
  · rw [hst']
    show lookupFile refs2 MERGE_HEAD = _
    rw [hrefs2]
    exact lookupFile_fsWrite_ne _ _ _ _ (fun h => hnm h.symm)
  · rw [hst']
    show st1.index = idx
    exact hst1idx
  · rw [hst']
    show get_ref fuel refs2 HEAD true = _
    have hrefs2' : refs2 = fsWrite st.refs nm other := hrefs2
    rw [hrefs2', get_ref,
      getRefInternal_fsWrite_final other ho1 ho2 fuel st.refs HEAD nm rv2 hgri]
    rfl

/-- Witness for C5: HEAD on branch `master` at commit A, merging commit B
whose parent is A fast-forwards the branch to B. -/
theorem spec_c5_witness :
    lookupFile c5St'.refs MERGE_HEAD = lookupFile c5St.refs MERGE_HEAD ∧
    (∃ idx, get_tree 10 c5St.objects wTreeOid [] = some idx ∧ c5St'.index = idx) ∧
    get_ref 10 c5St'.refs HEAD true = some ⟨false, some c5B⟩ :=
  spec_c5_fast_forward (fun _ _ t => t) 10 c5St c5B wCommitA c5St'
    ⟨false, some wCommitA⟩ ⟨wTreeOid, [wCommitA], ( "B".data)⟩
    (by decide) rfl (by decide) (by decide) (by decide)
    (by decide) (by decide) (by decide)
    (fun nm rv2 h => by
      have e : getRefInternal 10 c5St.refs HEAD true =
          some (masterRef, ⟨false, some wCommitA⟩) := by decide
      rw [e] at h
      obtain ⟨h1, _⟩ := Prod.mk.injEq .. ▸ Option.some.inj h
      rw [← h1]
      decide)
    (by decide)

/-- C8 counterexample: with `HEAD` holding a direct truthy id and one
branch ref, `iter_refs` with prefix `refs/heads/` omits `HEAD` from its
output even though `HEAD` resolves to a non-empty value — the prefix
filter is applied to `HEAD` like any other name, contradicting the claim
that `HEAD` and `MERGE_HEAD` are yielded regardless of the prefix. -/
theorem spec_c8_counterexample :
    get_ref 10 c8Refs HEAD true = some ⟨false, some aOid⟩ ∧
    pyTruthy (some aOid) = true ∧
    (iter_refs 10 c8Refs ( "refs/heads/".data) true).map (List.map Prod.fst) =
      some [masterRef] ∧
    HEAD ∉ [masterRef] := by
  refine ⟨by decide, by decide, by decide, by decide⟩

theorem iter_refs_filter_fold (fuel : Nat) (refs : Refs) (deref : Bool)
    (g : Str → Bool) (names : List Str) (acc : List (Str × RefValue)) :
    names.foldlM (fun acc name =>
        if g name then some acc
        else do
          let rv ← get_ref fuel refs name deref
          if pyTruthy rv.value then some (acc ++ [(name, rv)]) else some acc) acc =
      (names.filter (fun name => !g name)).foldlM (fun acc name => do
        let rv ← get_ref fuel refs name deref
        if pyTruthy rv.value then some (acc ++ [(name, rv)]) else some acc) acc := by
  induction names generalizing acc with
  | nil => rfl
  | cons n t ih =>
    by_cases h : g n = true
    · rw [List.foldlM_cons, List.filter_cons, if_pos h]
      rw [if_neg (show ¬(!g n) = true by simp [h])]
      simp only [Option.bind_eq_bind, Option.some_bind]
      exact ih _
    · rw [List.foldlM_cons, List.filter_cons, if_neg h, if_pos (by simp [h]),
        List.foldlM_cons]
      simp only [Option.bind_eq_bind]
      cases hg : get_ref fuel refs n deref with
      | none => simp
      | some rv =>
        simp only [Option.some_bind]
        by_cases ht : pyTruthy rv.value = true
        · simp only [ht, if_true, Option.some_bind]
          exact ih _
        · simp only [ht, if_false, Bool.false_eq_true, Option.some_bind]
          exact ih _

/-- C8 (amended): `iter_refs(prefix, deref)` enumerates `HEAD`,
`MERGE_HEAD` and the refs walked under the refs root, keeps those whose
normalized name starts with the normalized prefix whenever the prefix is
non-empty — the filter applies to `HEAD` and `MERGE_HEAD` exactly as to
the walked refs — and yields each survivor with its resolved value when
that value is non-empty. -/
theorem spec_c8_iter_refs_amended (fuel : Nat) (refs : Refs) (pfx : Str) (deref : Bool) :
    iter_refs fuel refs pfx deref = iterRefsSpec fuel refs pfx deref := by
  rw [iter_refs, iterRefsSpec]
  rw [iter_refs_filter_fold fuel refs deref
    (fun name => !pfx.isEmpty && !strStarts (normpath pfx) (normpath name))]
  have he : (fun name => !(!pfx.isEmpty && !strStarts (normpath pfx) (normpath name))) =
      (fun name => pfx.isEmpty || strStarts (normpath pfx) (normpath name)) := by
    funext name
    cases pfx.isEmpty <;> cases strStarts (normpath pfx) (normpath name) <;> rfl
  rw [he]

/-- Witness for the amended C8 statement at the counterexample store. -/
theorem spec_c8_witness :
    iter_refs 10 c8Refs ( "refs/heads/".data) true =
      iterRefsSpec 10 c8Refs ( "refs/heads/".data) true :=
  spec_c8_iter_refs_amended 10 c8Refs ( "refs/heads/".data) true

/-! ### C1: determinism and round trip of the tree codec -/

theorem strLt_irrefl (s : Str) : strLt s s = false := by
  induction s with
  | nil => rfl
  | cons c t ih => simp [strLt, ih]

theorem strLt_asymm {a b : Str} (h : strLt a b = true) : strLt b a = false := by
  induction a generalizing b with
  | nil => cases b with
    | nil => exact Bool.noConfusion h
    | cons c t => rfl
  | cons c s ih =>
    cases b with
    | nil => exact Bool.noConfusion h
    | cons d t =>
      rw [strLt] at h ⊢
      rcases lt_trichotomy c d with hcd | hcd | hcd
      · rw [if_neg (not_lt_of_lt hcd), if_pos hcd]
      · subst hcd
        rw [if_neg (lt_irrefl c), if_neg (lt_irrefl c)] at h ⊢
        exact ih h
      · rw [if_neg (not_lt_of_lt hcd), if_pos hcd] at h
        exact Bool.noConfusion h

theorem strLt_eq_of_not {a b : Str} (h1 : strLt a b = false) (h2 : strLt b a = false) :
    a = b := by
  induction a generalizing b with
  | nil => cases b with
    | nil => rfl
    | cons d t => exact Bool.noConfusion h1
  | cons c s ih =>
    cases b with
    | nil => exact Bool.noConfusion h2
    | cons d t =>
      rw [strLt] at h1 h2
      rcases lt_trichotomy c d with hcd | hcd | hcd
      · rw [if_pos hcd] at h1; exact Bool.noConfusion h1
      · subst hcd
        rw [if_neg (lt_irrefl c), if_neg (lt_irrefl c)] at h1 h2
        rw [ih h1 h2]
      · rw [if_pos hcd] at h2; exact Bool.noConfusion h2

theorem strLt_trans {a b c : Str} (h1 : strLt a b = true) (h2 : strLt b c = true) :
    strLt a c = true := by
  induction a generalizing b c with
  | nil =>
    cases c with
    | nil =>
      cases b with
      | nil => exact Bool.noConfusion h1
      | cons d t => exact Bool.noConfusion h2
    | cons d t => rfl
  | cons x s ih =>
    cases b with
    | nil => exact Bool.noConfusion h1
    | cons y t =>
      cases c with
      | nil => exact Bool.noConfusion h2
      | cons z u =>
        rw [strLt] at h1 h2 ⊢
        rcases lt_trichotomy x y with hxy | hxy | hxy
        · rcases lt_trichotomy y z with hyz | hyz | hyz
          · rw [if_pos (lt_trans hxy hyz)]
          · subst hyz; rw [if_pos hxy]
          · rw [if_neg (not_lt_of_lt hyz), if_pos hyz] at h2; exact Bool.noConfusion h2
        · subst hxy
          rw [if_neg (lt_irrefl x), if_neg (lt_irrefl x)] at h1
          rcases lt_trichotomy x z with hyz | hyz | hyz
          · rw [if_pos hyz]
          · subst hyz
            rw [if_neg (lt_irrefl x), if_neg (lt_irrefl x)] at h2 ⊢
            exact ih h1 h2
          · rw [if_neg (not_lt_of_lt hyz), if_pos hyz] at h2; exact Bool.noConfusion h2
        · rw [if_neg (not_lt_of_lt hxy), if_pos hxy] at h1; exact Bool.noConfusion h1

theorem strLe_iff (s t : Str) : strLe s t = true ↔ strLt t s = false := by
  rw [strLe]
  cases strLt t s <;> simp

theorem strLe_total (s t : Str) : strLe s t = true ∨ strLe t s = true := by
  rw [strLe_iff, strLe_iff]
  cases h1 : strLt t s
  · exact Or.inl rfl
  · exact Or.inr (strLt_asymm h1)

theorem strLe_trans {a b c : Str} (h1 : strLe a b = true) (h2 : strLe b c = true) :
    strLe a c = true := by
  rw [strLe_iff] at h1 h2 ⊢
  cases hx : strLt c a
  · rfl
  · cases hy : strLt a b
    · rw [strLt_eq_of_not hy h1] at hx
      rw [hx] at h2
      exact Bool.noConfusion h2
    · rw [strLt_trans hx hy] at h2
      exact Bool.noConfusion h2

theorem strLe_antisymm {a b : Str} (h1 : strLe a b = true) (h2 : strLe b a = true) :
    a = b := by
  rw [strLe_iff] at h1 h2
  exact strLt_eq_of_not h2 h1

instance : IsTotal (Str × Str × Str) tripLe where
  total a b := by
    unfold tripLe
    cases h1 : strLt a.1 b.1
    · cases h2 : strLt b.1 a.1
      · have he : a.1 = b.1 := strLt_eq_of_not h1 h2
        cases h3 : strLt a.2.1 b.2.1
        · cases h4 : strLt b.2.1 a.2.1
          · have he2 : a.2.1 = b.2.1 := strLt_eq_of_not h3 h4
            rcases strLe_total a.2.2 b.2.2 with h5 | h5
            · exact Or.inl (Or.inr ⟨he, Or.inr ⟨he2, h5⟩⟩)
            · exact Or.inr (Or.inr ⟨he.symm, Or.inr ⟨he2.symm, h5⟩⟩)
          · exact Or.inr (Or.inr ⟨he.symm, Or.inl rfl⟩)
        · exact Or.inl (Or.inr ⟨he, Or.inl rfl⟩)
      · exact Or.inr (Or.inl rfl)
    · exact Or.inl (Or.inl rfl)

instance : IsTrans (Str × Str × Str) tripLe where
  trans a b c hab hbc := by
    unfold tripLe at hab hbc ⊢
    rcases hab with h1 | ⟨e1, h1⟩
    · rcases hbc with h2 | ⟨e2, h2⟩
      · exact Or.inl (strLt_trans h1 h2)
      · rw [e2] at h1; exact Or.inl h1
    · rcases hbc with h2 | ⟨e2, h2⟩
      · rw [e1]; exact Or.inl h2
      · refine Or.inr ⟨e1.trans e2, ?_⟩
        rcases h1 with h1 | ⟨f1, h1⟩
        · rcases h2 with h2 | ⟨f2, h2⟩
          · exact Or.inl (strLt_trans h1 h2)
          · rw [f2] at h1; exact Or.inl h1
        · rcases h2 with h2 | ⟨f2, h2⟩
          · rw [f1]; exact Or.inl h2
          · exact Or.inr ⟨f1.trans f2, strLe_trans h1 h2⟩

instance : IsAntisymm (Str × Str × Str) tripLe where
  antisymm a b hab hba := by
    unfold tripLe at hab hba
    rcases hab with h1 | ⟨e1, h1⟩
    · rcases hba with h2 | ⟨e2, h2⟩
      · rw [strLt_asymm h1] at h2; exact Bool.noConfusion h2
      · rw [e2, strLt_irrefl] at h1; exact Bool.noConfusion h1
    · rcases hba with h2 | ⟨e2, h2⟩
      · rw [e1, strLt_irrefl] at h2; exact Bool.noConfusion h2
      · rcases h1 with h1 | ⟨f1, h1⟩
        · rcases h2 with h2 | ⟨f2, h2⟩
          · rw [strLt_asymm h1] at h2; exact Bool.noConfusion h2
          · rw [f2, strLt_irrefl] at h1; exact Bool.noConfusion h1
        · rcases h2 with h2 | ⟨f2, h2⟩
          · rw [f1, strLt_irrefl] at h2; exact Bool.noConfusion h2
          · exact Prod.ext e1 (Prod.ext f1 (strLe_antisymm h1 h2))

theorem sortTriples_perm (l : List (Str × Str × Str)) : (sortTriples l).Perm l :=
  List.perm_insertionSort tripLe l

theorem sortTriples_eq_of_perm {l1 l2 : List (Str × Str × Str)} (h : l1.Perm l2) :
    sortTriples l1 = sortTriples l2 :=
  List.eq_of_perm_of_sorted
    ((sortTriples_perm l1).trans (h.trans (sortTriples_perm l2).symm))
    (List.sorted_insertionSort tripLe l1)
    (List.sorted_insertionSort tripLe l2)

theorem flattenD_path_ne_nil (d : PDict) : ∀ e ∈ flattenD d, e.1 ≠ [] := by
  cases d with
  | nil => intro e he; cases he
  | cons k t r =>
    intro e he
    rw [flattenD, List.mem_append] at he
    rcases he with he | he
    · obtain ⟨f, _, hf⟩ := List.mem_map.mp he
      rw [← hf]
      simp
    · exact flattenD_path_ne_nil r e he

theorem flattenD_head_mem_keys (d : PDict) :
    ∀ e ∈ flattenD d, ∀ h tl, e.1 = h :: tl → h ∈ dictKeys d := by
  cases d with
  | nil => intro e he; cases he
  | cons k t r =>
    intro e he h tl hh
    rw [flattenD, List.mem_append] at he
    rcases he with he | he
    · obtain ⟨f, _, hf⟩ := List.mem_map.mp he
      rw [← hf] at hh
      have : h = k := by
        have := congrArg List.head? hh
        simp at this
        exact this.symm
      rw [this, dictKeys]
      exact List.mem_cons_self _ _
    · exact List.mem_cons_of_mem _ (flattenD_head_mem_keys r e he h tl hh)

theorem dictFind_mem_keys (d : PDict) (k : Str) :
    (∃ t, dictFind d k = some t) ↔ k ∈ dictKeys d := by
  cases d with
  | nil => simp [dictFind, dictKeys]
  | cons k' t r =>
    rw [dictFind, dictKeys]
    by_cases h : k' = k
    · subst h
      simp
    · rw [if_neg h]
      simp only [List.mem_cons]
      constructor
      · intro hx
        exact Or.inr ((dictFind_mem_keys r k).mp hx)
      · intro hx
        rcases hx with hx | hx
        · exact absurd hx.symm h
        · exact (dictFind_mem_keys r k).mpr hx

mutual
theorem flattenT_ne_nil (t : PTree) (hw : wfT t) : flattenT t ≠ [] := by
  cases t with
  | blob o => simp [flattenT]
  | dir d =>
    rw [flattenT]
    rw [wfT] at hw
    exact flattenD_ne_nil d hw.1 hw.2
theorem flattenD_ne_nil (d : PDict) (hw : wfD d) (hne : d ≠ .nil) : flattenD d ≠ [] := by
  cases d with
  | nil => exact absurd rfl hne
  | cons k t r =>
    rw [flattenD]
    rw [wfD] at hw
    intro hx
    rcases List.append_eq_nil.mp hx with ⟨h1, _⟩
    exact flattenT_ne_nil t hw.1 (List.map_eq_nil_iff.mp h1)
end

theorem groupOf_append (k : Str) (L1 L2 : List (List Str × Str)) :
    groupOf k (L1 ++ L2) = groupOf k L1 ++ groupOf k L2 :=
  List.filterMap_append _ _ _

theorem groupOf_prefixed (k k' : Str) (L : List (List Str × Str)) :
    groupOf k (L.map (fun e => (k' :: e.1, e.2))) = if k' = k then L else [] := by
  rw [groupOf, List.filterMap_map]
  by_cases h : k' = k
  · rw [if_pos h]
    have : ∀ e ∈ L, ((fun e : List Str × Str => match e.1 with
        | [] => none
        | h :: tl => if h = k then some (tl, e.2) else none) ∘
          (fun e : List Str × Str => (k' :: e.1, e.2))) e = some e := by
      intro e he
      simp [Function.comp, h]
    rw [List.filterMap_congr (fun e he => this e he)]
    simp
  · rw [if_neg h]
    refine List.filterMap_eq_nil_iff.mpr ?_
    intro e he
    simp [Function.comp, h]

theorem groupOf_absent (k : Str) (d : PDict) (hk : k ∉ dictKeys d) :
    groupOf k (flattenD d) = [] := by
  refine List.filterMap_eq_nil_iff.mpr ?_
  intro e he
  rcases he1 : e.1 with _ | ⟨h, tl⟩
  · exact absurd he1 (flattenD_path_ne_nil d e he)
  · have : h ∈ dictKeys d := flattenD_head_mem_keys d e he h tl he1
    dsimp only
    rw [if_neg (fun hh : h = k => hk (hh ▸ this))]

theorem groupOf_flattenD (k : Str) (d : PDict) (hw : wfD d) :
    groupOf k (flattenD d) =
      (match dictFind d k with
       | none => []
       | some t => flattenT t) := by
  cases d with
  | nil => rfl
  | cons k' t r =>
    rw [wfD] at hw
    rw [flattenD, groupOf_append, groupOf_prefixed, dictFind]
    by_cases h : k' = k
    · rw [if_pos h, if_pos h]
      rw [groupOf_absent k r (h ▸ hw.2.2)]
      simp
    · rw [if_neg h, if_neg h, List.nil_append]
      exact groupOf_flattenD k r hw.2.1

theorem wfD_keys_nodup (d : PDict) (hw : wfD d) : (dictKeys d).Nodup := by
  cases d with
  | nil => exact List.nodup_nil
  | cons k t r =>
    rw [wfD] at hw
    rw [dictKeys]
    exact List.nodup_cons.mpr ⟨hw.2.2, wfD_keys_nodup r hw.2.1⟩

theorem dictFind_wfT (d : PDict) (k : Str) (t : PTree) (hw : wfD d)
    (hf : dictFind d k = some t) : wfT t := by
  cases d with
  | nil => cases hf
  | cons k' t' r =>
    rw [wfD] at hw
    rw [dictFind] at hf
    by_cases h : k' = k
    · rw [if_pos h] at hf
      exact (Option.some.inj hf) ▸ hw.1
    · rw [if_neg h] at hf
      exact dictFind_wfT r k t hw.2.1 hf

theorem dictFind_goodT (d : PDict) (k : Str) (t : PTree) (hg : goodD d)
    (hf : dictFind d k = some t) : goodT t := by
  cases d with
  | nil => cases hf
  | cons k' t' r =>
    rw [goodD] at hg
    rw [dictFind] at hf
    by_cases h : k' = k
    · rw [if_pos h] at hf
      exact (Option.some.inj hf) ▸ hg.2.1
    · rw [if_neg h] at hf
      exact dictFind_goodT r k t hg.2.2 hf

theorem mem_keys_iff_group (k : Str) (d : PDict) (hw : wfD d) :
    k ∈ dictKeys d ↔ groupOf k (flattenD d) ≠ [] := by
  rw [groupOf_flattenD k d hw]
  constructor
  · intro hk
    obtain ⟨t, ht⟩ := (dictFind_mem_keys d k).mpr hk
    rw [ht]
    exact flattenT_ne_nil t (dictFind_wfT d k t hw ht)
  · intro hne
    rcases hf : dictFind d k with _ | t
    · rw [hf] at hne
      exact absurd rfl hne
    · exact (dictFind_mem_keys d k).mp ⟨t, hf⟩

theorem dictFind_sizeOf (d : PDict) (k : Str) (t : PTree) (hf : dictFind d k = some t) :
    sizeOf t < sizeOf d := by
  cases d with
  | nil => cases hf
  | cons k' t' r =>
    rw [dictFind] at hf
    by_cases h : k' = k
    · rw [if_pos h] at hf
      have : t = t' := (Option.some.inj hf).symm
      subst this
      simp
      omega
    · rw [if_neg h] at hf
      have := dictFind_sizeOf r k t hf
      simp
      omega

theorem entryTriples_eq_map (d : PDict) (hw : wfD d) :
    entryTriples d =
      (dictKeys d).map (fun k => (k, treeOid (getT d k), treeKind (getT d k))) := by
  cases d with
  | nil => rfl
  | cons k t r =>
    rw [wfD] at hw
    rw [entryTriples, dictKeys, List.map_cons]
    have hk : getT (PDict.cons k t r) k = t := by
      rw [getT, dictFind, if_pos rfl]
      rfl
    rw [hk]
    have htl : ∀ k' ∈ dictKeys r,
        (fun k' => (k', treeOid (getT (PDict.cons k t r) k'), treeKind (getT (PDict.cons k t r) k'))) k' =
        (fun k' => (k', treeOid (getT r k'), treeKind (getT r k'))) k' := by
      intro k' hk'
      have hne : ¬ k = k' := fun h => hw.2.2 (h ▸ hk')
      simp only [getT, dictFind, if_neg hne]
    rw [List.map_congr_left htl, ← entryTriples_eq_map r hw.2.1]

theorem keys_perm_of_flatten_perm (d1 d2 : PDict) (h1 : wfD d1) (h2 : wfD d2)
    (hp : (flattenD d1).Perm (flattenD d2)) : (dictKeys d1).Perm (dictKeys d2) := by
  rw [List.perm_ext_iff_of_nodup (wfD_keys_nodup d1 h1) (wfD_keys_nodup d2 h2)]
  intro k
  rw [mem_keys_iff_group k d1 h1, mem_keys_iff_group k d2 h2]
  have hgp : (groupOf k (flattenD d1)).Perm (groupOf k (flattenD d2)) := hp.filterMap _
  constructor
  · intro hne hnil
    exact hne (List.eq_nil_of_length_eq_zero (by rw [hgp.length_eq, hnil]; rfl))
  · intro hne hnil
    exact hne (List.eq_nil_of_length_eq_zero (by rw [← hgp.length_eq, hnil]; rfl))

theorem subtree_flatten_perm (d1 d2 : PDict) (k : Str) (h1 : wfD d1) (h2 : wfD d2)
    (hp : (flattenD d1).Perm (flattenD d2)) (hk : k ∈ dictKeys d1) :
    ∃ t1 t2, dictFind d1 k = some t1 ∧ dictFind d2 k = some t2 ∧
      (flattenT t1).Perm (flattenT t2) := by
  obtain ⟨t1, ht1⟩ := (dictFind_mem_keys d1 k).mpr hk
  have hk2 : k ∈ dictKeys d2 := (keys_perm_of_flatten_perm d1 d2 h1 h2 hp).mem_iff.mp hk
  obtain ⟨t2, ht2⟩ := (dictFind_mem_keys d2 k).mpr hk2
  refine ⟨t1, t2, ht1, ht2, ?_⟩
  have hgp : (groupOf k (flattenD d1)).Perm (groupOf k (flattenD d2)) := hp.filterMap _
  rw [groupOf_flattenD k d1 h1, ht1, groupOf_flattenD k d2 h2, ht2] at hgp
  exact hgp

theorem writeTreeDir_flatten_aux (n : Nat) :
    ∀ d1 d2 : PDict, sizeOf d1 ≤ n → wfD d1 → wfD d2 →
      (flattenD d1).Perm (flattenD d2) → writeTreeDir d1 = writeTreeDir d2 := by
  induction n with
  | zero =>
    intro d1 d2 hs
    cases d1 <;> simp at hs
  | succ n ih =>
    intro d1 d2 hs h1 h2 hp
    rw [writeTreeDir, writeTreeDir]
    have hperm : (entryTriples d1).Perm (entryTriples d2) := by
      rw [entryTriples_eq_map d1 h1, entryTriples_eq_map d2 h2]
      have hkp := keys_perm_of_flatten_perm d1 d2 h1 h2 hp
      refine (hkp.map _).trans (List.Perm.of_eq (List.map_congr_left ?_))
      intro k hk
      have hk1 : k ∈ dictKeys d1 := hkp.mem_iff.mpr hk
      obtain ⟨t1, t2, ht1, ht2, htp⟩ := subtree_flatten_perm d1 d2 k h1 h2 hp hk1
      have hg1 : getT d1 k = t1 := by rw [getT, ht1]; rfl
      have hg2 : getT d2 k = t2 := by rw [getT, ht2]; rfl
      rw [hg1, hg2]
      cases t1 with
      | blob o1 =>
        cases t2 with
        | blob o2 =>
          have : ([], o1) = (([] : List Str), o2) := by
            have := List.perm_singleton.mp htp
            exact (List.cons.injEq _ _ _ _ ▸ this).1.symm ▸ rfl
          simp [treeOid, treeKind]
          exact (Prod.mk.injEq .. ▸ this).2
        | dir sub2 =>
          have hmem : (([] : List Str), o1) ∈ flattenT (.dir sub2) :=
            htp.mem_iff.mp (by rw [flattenT]; exact List.mem_singleton.mpr rfl)
          rw [flattenT] at hmem
          exact absurd rfl (flattenD_path_ne_nil sub2 _ hmem)
      | dir sub1 =>
        cases t2 with
        | blob o2 =>
          have hmem : (([] : List Str), o2) ∈ flattenT (.dir sub1) :=
            htp.mem_iff.mpr (by rw [flattenT]; exact List.mem_singleton.mpr rfl)
          rw [flattenT] at hmem
          exact absurd rfl (flattenD_path_ne_nil sub1 _ hmem)
        | dir sub2 =>
          have hs1 : sizeOf sub1 ≤ n := by
            have ha := dictFind_sizeOf d1 k _ ht1
            have hb : sizeOf (PTree.dir sub1) = 1 + sizeOf sub1 := by simp
            omega
          have hw1 : wfD sub1 := ((show wfT (.dir sub1) from dictFind_wfT d1 k _ h1 ht1)).1
          have hw2 : wfD sub2 := ((show wfT (.dir sub2) from dictFind_wfT d2 k _ h2 ht2)).1
          have htp' : (flattenD sub1).Perm (flattenD sub2) := by
            rw [flattenT, flattenT] at htp
            exact htp
          have := ih sub1 sub2 hs1 hw1 hw2 htp'
          simp only [treeOid, treeKind]
          rw [show hash_object (renderTree (sortTriples (entryTriples sub1))) TREE_T =
              writeTreeDir sub1 from rfl,
            show hash_object (renderTree (sortTriples (entryTriples sub2))) TREE_T =
              writeTreeDir sub2 from rfl, this]
    rw [sortTriples_eq_of_perm hperm]

/-- Two well-formed nested dicts with the same flat content (up to entry
order) hash to the same tree id. -/
theorem writeTreeDir_flatten_eq (d1 d2 : PDict) (h1 : wfD d1) (h2 : wfD d2)
    (hp : (flattenD d1).Perm (flattenD d2)) : writeTreeDir d1 = writeTreeDir d2 :=
  writeTreeDir_flatten_aux (sizeOf d1) d1 d2 (le_refl _) h1 h2 hp

theorem dictFind_not_mem_keys (d : PDict) (k : Str) (h : dictFind d k = none) :
    k ∉ dictKeys d := by
  intro hk
  obtain ⟨t, ht⟩ := (dictFind_mem_keys d k).mpr hk
  rw [h] at ht
  cases ht

theorem dictSet_keys_fresh (d : PDict) (k : Str) (v : PTree) (h : k ∉ dictKeys d) :
    dictKeys (dictSet d k v) = dictKeys d ++ [k] := by
  cases d with
  | nil => rfl
  | cons k' t r =>
    rw [dictKeys, List.mem_cons, not_or] at h
    rw [dictSet, if_neg (fun hc => h.1 hc.symm), dictKeys, dictKeys, List.cons_append,
      dictSet_keys_fresh r k v h.2]

theorem flattenD_dictSet_fresh (d : PDict) (k : Str) (v : PTree) (h : k ∉ dictKeys d) :
    flattenD (dictSet d k v) = flattenD d ++ (flattenT v).map (fun e => (k :: e.1, e.2)) := by
  cases d with
  | nil => simp [dictSet, flattenD]
  | cons k' t r =>
    rw [dictKeys, List.mem_cons, not_or] at h
    rw [dictSet, if_neg (fun hc => h.1 hc.symm), flattenD, flattenD,
      flattenD_dictSet_fresh r k v h.2, List.append_assoc]

theorem wfD_dictSet_fresh (d : PDict) (k : Str) (v : PTree) (hw : wfD d)
    (h : k ∉ dictKeys d) (hv : wfT v) : wfD (dictSet d k v) := by
  cases d with
  | nil => exact ⟨hv, trivial, List.not_mem_nil k⟩
  | cons k' t r =>
    rw [wfD] at hw
    rw [dictKeys, List.mem_cons, not_or] at h
    rw [dictSet, if_neg (fun hc => h.1 hc.symm), wfD]
    refine ⟨hw.1, wfD_dictSet_fresh r k v hw.2.1 h.2 hv, ?_⟩
    rw [dictSet_keys_fresh r k v h.2, List.mem_append]
    rintro (hc | hc)
    · exact hw.2.2 hc
    · exact h.1 (List.mem_singleton.mp hc).symm

theorem goodD_dictSet (d : PDict) (k : Str) (v : PTree) (hg : goodD d)
    (hk : goodKey k) (hv : goodT v) : goodD (dictSet d k v) := by
  cases d with
  | nil => exact ⟨hk, hv, trivial⟩
  | cons k' t r =>
    rw [goodD] at hg
    rw [dictSet]
    by_cases h : k' = k
    · rw [if_pos h, goodD]
      exact ⟨hk, hv, hg.2.2⟩
    · rw [if_neg h, goodD]
      exact ⟨hg.1, hg.2.1, goodD_dictSet r k v hg.2.2 hk hv⟩

theorem dictSet_replace (d : PDict) (k : Str) (v told : PTree)
    (hf : dictFind d k = some told) :
    ∃ A B, flattenD d = A ++ (flattenT told).map (fun e => (k :: e.1, e.2)) ++ B ∧
      flattenD (dictSet d k v) = A ++ (flattenT v).map (fun e => (k :: e.1, e.2)) ++ B ∧
      dictKeys (dictSet d k v) = dictKeys d := by
  cases d with
  | nil => cases hf
  | cons k' t r =>
    rw [dictFind] at hf
    by_cases h : k' = k
    · subst h
      rw [if_pos rfl] at hf
      have : told = t := (Option.some.inj hf).symm
      subst this
      refine ⟨[], flattenD r, by rw [flattenD]; simp, ?_, ?_⟩
      · rw [dictSet, if_pos rfl, flattenD]
        simp
      · rw [dictSet, if_pos rfl, dictKeys, dictKeys]
    · rw [if_neg h] at hf
      obtain ⟨A, B, h1, h2, h3⟩ := dictSet_replace r k v told hf
      refine ⟨(flattenT t).map (fun e => (k' :: e.1, e.2)) ++ A, B, ?_, ?_, ?_⟩
      · rw [flattenD, h1]
        simp [List.append_assoc]
      · rw [dictSet, if_neg h, flattenD, h2]
        simp [List.append_assoc]
      · rw [dictSet, if_neg h, dictKeys, dictKeys, h3]

theorem wfD_dictSet_replace (d : PDict) (k : Str) (v told : PTree) (hw : wfD d)
    (hf : dictFind d k = some told) (hv : wfT v) : wfD (dictSet d k v) := by
  cases d with
  | nil => cases hf
  | cons k' t r =>
    rw [wfD] at hw
    rw [dictFind] at hf
    by_cases h : k' = k
    · subst h
      rw [dictSet, if_pos rfl, wfD]
      exact ⟨hv, hw.2.1, hw.2.2⟩
    · rw [if_neg h] at hf
      rw [dictSet, if_neg h, wfD]
      obtain ⟨_, _, _, _, h3⟩ := dictSet_replace r k v told hf
      refine ⟨hw.1, wfD_dictSet_replace r k v told hw.2.1 hf hv, ?_⟩
      rw [h3]
      exact hw.2.2

theorem dictFind_flattenT_mem (d : PDict) (k : Str) (t : PTree)
    (hf : dictFind d k = some t) :
    ∀ e ∈ flattenT t, (k :: e.1, e.2) ∈ flattenD d := by
  cases d with
  | nil => cases hf
  | cons k' t' r =>
    rw [dictFind] at hf
    intro e he
    rw [flattenD, List.mem_append]
    by_cases h : k' = k
    · subst h
      have : t = t' := by
        rw [if_pos rfl] at hf
        exact (Option.some.inj hf).symm
      left
      exact List.mem_map.mpr ⟨e, (this ▸ he : e ∈ flattenT t'), rfl⟩
    · rw [if_neg h] at hf
      exact Or.inr (dictFind_flattenT_mem r k t hf e he)

theorem insert_nil_chain (p : List Str) (oid : Str) (hne : p ≠ []) :
    ∃ sub : PDict, insertSegs p oid .nil = some sub ∧ wfD sub ∧ sub ≠ .nil ∧
      flattenD sub = [(p, oid)] ∧
      ((∀ s ∈ p, goodKey s) → goodOid oid → goodD sub) := by
  cases p with
  | nil => exact absurd rfl hne
  | cons dn rest =>
    cases rest with
    | nil =>
      refine ⟨.cons dn (.blob oid) .nil, ?_, ?_, ?_, ?_, ?_⟩
      · rfl
      · exact ⟨trivial, trivial, List.not_mem_nil dn⟩
      · exact fun h => PDict.noConfusion h
      · simp [flattenD, flattenT]
      · intro hs ho
        exact ⟨hs dn (List.mem_singleton.mpr rfl), ho, trivial⟩
    | cons r1 r2 =>
      obtain ⟨sub, h1, h2, h3, h4, h5⟩ := insert_nil_chain (r1 :: r2) oid (List.cons_ne_nil r1 r2)
      refine ⟨.cons dn (.dir sub) .nil, ?_, ?_, ?_, ?_, ?_⟩
      · rw [insertSegs]
        · rw [show dictFind .nil dn = none from rfl]
          dsimp only
          rw [h1]
          rfl
        · exact fun h => List.noConfusion h
      · exact ⟨⟨h2, h3⟩, trivial, List.not_mem_nil dn⟩
      · exact fun h => PDict.noConfusion h
      · rw [flattenD, flattenT, h4]
        simp [flattenD]
      · intro hs ho
        refine ⟨hs dn (List.mem_cons_self _ _), ?_, trivial⟩
        rw [goodT]
        exact h5 (fun s hsm => hs s (List.mem_cons_of_mem _ hsm)) ho

theorem insertSegs_step (p : List Str) (oid : Str) :
    ∀ d : PDict, wfD d → p ≠ [] →
    (∀ e ∈ flattenD d, ¬ (e.1 <+: p) ∧ ¬ (p <+: e.1)) →
    ∃ d', insertSegs p oid d = some d' ∧ wfD d' ∧
      (flattenD d').Perm ((p, oid) :: flattenD d) ∧
      ((∀ s ∈ p, goodKey s) → goodOid oid → goodD d → goodD d') := by
  cases p with
  | nil => intro d _ hne; exact absurd rfl hne
  | cons dn rest =>
    cases rest with
    | nil =>
      intro d hw _ hfree
      have hdn : dn ∉ dictKeys d := by
        intro hk
        obtain ⟨t, ht⟩ := (dictFind_mem_keys d dn).mpr hk
        obtain ⟨e0, he0⟩ := List.exists_mem_of_ne_nil _ (flattenT_ne_nil t (dictFind_wfT d dn t hw ht))
        have hmem := dictFind_flattenT_mem d dn t ht e0 he0
        exact (hfree _ hmem).2 ⟨e0.1, rfl⟩
      refine ⟨dictSet d dn (.blob oid), rfl, wfD_dictSet_fresh d dn _ hw hdn trivial, ?_, ?_⟩
      · rw [flattenD_dictSet_fresh d dn _ hdn, flattenT]
        exact (List.perm_append_comm).trans (by simp)
      · intro hs ho hg
        exact goodD_dictSet d dn _ hg (hs dn (List.mem_singleton.mpr rfl)) ho
    | cons r1 r2 =>
      intro d hw _ hfree
      rcases hf : dictFind d dn with _ | t
      · obtain ⟨sub, h1, h2, h3, h4, h5⟩ := insert_nil_chain (r1 :: r2) oid (List.cons_ne_nil r1 r2)
        have hdn : dn ∉ dictKeys d := dictFind_not_mem_keys d dn hf
        refine ⟨dictSet d dn (.dir sub), ?_, wfD_dictSet_fresh d dn _ hw hdn ⟨h2, h3⟩, ?_, ?_⟩
        · rw [insertSegs]
          · rw [hf]
            dsimp only
            rw [h1]
            rfl
          · exact fun h => List.noConfusion h
        · rw [flattenD_dictSet_fresh d dn _ hdn, flattenT, h4]
          exact (List.perm_append_comm).trans (by simp)
        · intro hs ho hg
          refine goodD_dictSet d dn _ hg (hs dn (List.mem_cons_self _ _)) ?_
          rw [goodT]
          exact h5 (fun s hsm => hs s (List.mem_cons_of_mem _ hsm)) ho
      · cases t with
        | blob o =>
          exfalso
          have hmem := dictFind_flattenT_mem d dn _ hf ([], o) (List.mem_singleton.mpr rfl)
          exact (hfree _ hmem).1 ⟨r1 :: r2, rfl⟩
        | dir sub0 =>
          have hwt : wfT (.dir sub0) := dictFind_wfT d dn _ hw hf
          have hfree' : ∀ e ∈ flattenD sub0, ¬ (e.1 <+: r1 :: r2) ∧ ¬ (r1 :: r2 <+: e.1) := by
            intro e he
            have hmem := dictFind_flattenT_mem d dn _ hf e he
            have := hfree _ hmem
            constructor
            · intro hpre
              exact this.1 ((List.cons_prefix_cons).mpr ⟨rfl, hpre⟩)
            · intro hpre
              exact this.2 ((List.cons_prefix_cons).mpr ⟨rfl, hpre⟩)
          obtain ⟨sub', h1, h2, h3, h4⟩ :=
            insertSegs_step (r1 :: r2) oid sub0 hwt.1 (List.cons_ne_nil r1 r2) hfree'
          have hsub'ne : sub' ≠ .nil := by
            intro hx
            subst hx
            have := h3.length_eq
            simp [flattenD] at this
          obtain ⟨A, B, g1, g2, g3⟩ := dictSet_replace d dn (.dir sub') (.dir sub0) hf
          refine ⟨dictSet d dn (.dir sub'), ?_,
            wfD_dictSet_replace d dn _ _ hw hf ⟨h2, hsub'ne⟩, ?_, ?_⟩
          · rw [insertSegs]
            · rw [hf]
              dsimp only
              rw [h1]
              rfl
            · exact fun h => List.noConfusion h
          · rw [g2, g1]
            rw [show flattenT (.dir sub') = flattenD sub' from rfl,
              show flattenT (.dir sub0) = flattenD sub0 from rfl]
            have hmap : (flattenD sub').Perm ((r1 :: r2, oid) :: flattenD sub0) := h3
            have hm2 : ((flattenD sub').map (fun e => (dn :: e.1, e.2))).Perm
                ((dn :: r1 :: r2, oid) :: (flattenD sub0).map (fun e => (dn :: e.1, e.2))) := by
              have := hmap.map (fun e => (dn :: e.1, e.2))
              simpa using this
            rw [List.append_assoc, List.append_assoc]
            refine List.Perm.trans (List.Perm.append_left A (hm2.append_right B)) ?_
            exact List.perm_middle
          · intro hs ho hg
            refine goodD_dictSet d dn _ hg (hs dn (List.mem_cons_self _ _)) ?_
            rw [goodT]
            exact h4 (fun s hsm => hs s (List.mem_cons_of_mem _ hsm)) ho
              (dictFind_goodT d dn _ hg hf)

theorem buildTree_aux (M : List (Str × Str)) :
    ∀ d0 : PDict, wfD d0 → goodD d0 →
    (∀ e ∈ M, (∀ s ∈ segsOf e.1, goodKey s) ∧ goodOid e.2) →
    (∀ e ∈ M, ∀ f ∈ flattenD d0, ¬ (f.1 <+: segsOf e.1) ∧ ¬ (segsOf e.1 <+: f.1)) →
    List.Pairwise (fun e f => ¬ (segsOf e.1 <+: segsOf f.1) ∧
      ¬ (segsOf f.1 <+: segsOf e.1)) M →
    ∃ d, M.foldlM (fun d e => insertSegs (pySplit '/' e.1) e.2 d) d0 = some d ∧
      wfD d ∧ goodD d ∧
      (flattenD d).Perm (flattenD d0 ++ M.map (fun e => (segsOf e.1, e.2))) := by
  induction M with
  | nil =>
    intro d0 hw hg _ _ _
    exact ⟨d0, rfl, hw, hg, by simp⟩
  | cons e M' ih =>
    intro d0 hw hg hgood hfree hpw
    obtain ⟨d1, s1, s2, s3, s4⟩ := insertSegs_step (segsOf e.1) e.2 d0 hw
      (pySplit_ne_nil '/' e.1) (fun f hf => hfree e (List.mem_cons_self _ _) f hf)
    have hd1good : goodD d1 :=
      s4 (hgood e (List.mem_cons_self _ _)).1 (hgood e (List.mem_cons_self _ _)).2 hg
    have hfree1 : ∀ e' ∈ M', ∀ f ∈ flattenD d1,
        ¬ (f.1 <+: segsOf e'.1) ∧ ¬ (segsOf e'.1 <+: f.1) := by
      intro e' he' f hf
      have hmem := s3.mem_iff.mp hf
      rcases List.mem_cons.mp hmem with hc | hc
      · have hpair := (List.pairwise_cons.mp hpw).1 e' he'
        subst hc
        exact hpair
      · exact hfree e' (List.mem_cons_of_mem _ he') f hc
    obtain ⟨d, t1, t2, t3, t4⟩ := ih d1 s2 hd1good
      (fun e' he' => hgood e' (List.mem_cons_of_mem _ he'))
      hfree1 (List.pairwise_cons.mp hpw).2
    refine ⟨d, ?_, t2, t3, ?_⟩
    · rw [List.foldlM_cons]
      rw [show insertSegs (pySplit '/' e.1) e.2 d0 = some d1 from s1,
        Option.bind_eq_bind, Option.some_bind]
      exact t1
    · refine t4.trans ?_
      refine List.Perm.trans (s3.append_right _) ?_
      rw [List.map_cons, List.cons_append]
      exact List.perm_middle.symm

theorem buildTree_spec (M : List (Str × Str)) (hv : validIndex M) :
    ∃ d, buildTree M = some d ∧ wfD d ∧ goodD d ∧
      (flattenD d).Perm (M.map (fun e => (segsOf e.1, e.2))) := by
  obtain ⟨d, h1, h2, h3, h4⟩ := buildTree_aux M .nil trivial trivial hv.1
    (fun e _ f hf => absurd hf (List.not_mem_nil f)) hv.2.2
  exact ⟨d, h1, h2, h3, by simpa using h4⟩

theorem validIndex_perm {M1 M2 : List (Str × Str)} (hp : M1.Perm M2)
    (hv : validIndex M1) : validIndex M2 := by
  refine ⟨fun e he => hv.1 e (hp.mem_iff.mpr he), ((hp.map Prod.fst).nodup_iff).mp hv.2.1, ?_⟩
  exact (List.Perm.pairwise_iff (fun h => ⟨h.2, h.1⟩) hp).mp hv.2.2

/-- Permutation invariance of `write_tree` on valid indices: both builds
succeed and hash to the same root id. -/
theorem write_tree_perm_eq (M1 M2 : List (Str × Str)) (hv : validIndex M1)
    (hp : M1.Perm M2) :
    ∃ d1 d2, buildTree M1 = some d1 ∧ buildTree M2 = some d2 ∧
      writeTreeDir d1 = writeTreeDir d2 ∧
      write_tree M1 = some (writeTreeDir d1) ∧ write_tree M2 = some (writeTreeDir d1) := by
  obtain ⟨d1, h1, hw1, hg1, hf1⟩ := buildTree_spec M1 hv
  obtain ⟨d2, h2, hw2, hg2, hf2⟩ := buildTree_spec M2 (validIndex_perm hp hv)
  have hfp : (flattenD d1).Perm (flattenD d2) :=
    hf1.trans ((hp.map _).trans hf2.symm)
  have heq : writeTreeDir d1 = writeTreeDir d2 := writeTreeDir_flatten_eq d1 d2 hw1 hw2 hfp
  refine ⟨d1, d2, h1, h2, heq, ?_, ?_⟩
  · rw [write_tree, h1]
    rfl
  · rw [write_tree, h2, Option.map_some', heq]

theorem hexChar_ne_space {c : Char} (h : isHexChar c = true) : c ≠ ' ' := by
  intro he
  subst he
  exact Bool.noConfusion h

theorem goodOid_noLB {o : Str} (h : goodOid o) : noLB o := noLB_of_hex h

theorem goodOid_no_space {o : Str} (h : goodOid o) : ' ' ∉ o := by
  intro hm
  exact hexChar_ne_space (h ' ' hm) rfl

theorem fsWrite_append (r : Refs) (p v : Str) (h : p ∉ r.map Prod.fst) :
    fsWrite r p v = r ++ [(p, v)] := by
  induction r with
  | nil => rfl
  | cons e t ih =>
    simp only [List.map_cons, List.mem_cons, not_or] at h
    cases e with
    | mk k w =>
      rw [fsWrite, if_neg (fun hh => h.1 hh.symm), List.cons_append, ih h.2]

theorem dictUpdate_append (acc sub : List (Str × Str))
    (hfresh : ∀ x ∈ sub, x.1 ∉ acc.map Prod.fst)
    (hnd : (sub.map Prod.fst).Nodup) : dictUpdate acc sub = acc ++ sub := by
  induction sub generalizing acc with
  | nil => simp [dictUpdate]
  | cons x t ih =>
    rw [dictUpdate, List.foldl_cons]
    rw [show List.foldl (fun a e => fsWrite a e.1 e.2) (fsWrite acc x.1 x.2) t =
      dictUpdate (fsWrite acc x.1 x.2) t from rfl]
    rw [fsWrite_append acc x.1 x.2 (hfresh x (List.mem_cons_self _ _))]
    have hnd' : (t.map Prod.fst).Nodup := by
      rw [List.map_cons, List.nodup_cons] at hnd
      exact hnd.2
    have hfr' : ∀ y ∈ t, y.1 ∉ (acc ++ [(x.1, x.2)]).map Prod.fst := by
      intro y hy
      rw [List.map_append, List.mem_append]
      rintro (hc | hc)
      · exact hfresh y (List.mem_cons_of_mem _ hy) hc
      · simp only [List.map_cons, List.map_nil, List.mem_singleton] at hc
        rw [List.map_cons, List.nodup_cons] at hnd
        exact hnd.1 (hc ▸ List.mem_map_of_mem Prod.fst hy)
    rw [ih (acc ++ [(x.1, x.2)]) hfr' hnd']
    simp

/-- Splitting a string at its first `'/'` is unique among `'/'`-free
prefixes. -/
theorem slash_split_inj (u : Str) : ∀ v x y : Str, '/' ∉ u → '/' ∉ v →
    u ++ '/' :: x = v ++ '/' :: y → u = v ∧ x = y := by
  induction u with
  | nil =>
    intro v x y _ hv h
    cases v with
    | nil => exact ⟨rfl, (List.cons.inj h).2⟩
    | cons c t =>
      rw [List.nil_append, List.cons_append] at h
      have := (List.cons.inj h).1
      exact absurd (this ▸ List.mem_cons_self c t : ('/' : Char) ∈ c :: t) hv
  | cons c t ih =>
    intro v x y hu hv h
    cases v with
    | nil =>
      rw [List.nil_append, List.cons_append] at h
      have := (List.cons.inj h).1
      exact absurd (this.symm ▸ List.mem_cons_self c t : ('/' : Char) ∈ c :: t) hu
    | cons c' t' =>
      rw [List.cons_append, List.cons_append] at h
      obtain ⟨h1, h2⟩ := List.cons.inj h
      have hu' : '/' ∉ t := fun hm => hu (List.mem_cons_of_mem _ hm)
      have hv' : '/' ∉ t' := fun hm => hv (List.mem_cons_of_mem _ hm)
      obtain ⟨h3, h4⟩ := ih t' x y hu' hv' h2
      exact ⟨by rw [h1, h3], h4⟩

theorem joinSep_cons (k : Str) (s : List Str) (hs : s ≠ []) :
    joinSep '/' (k :: s) = k ++ '/' :: joinSep '/' s := by
  cases s with
  | nil => exact absurd rfl hs
  | cons q r => rfl

theorem joinSep_single (k : Str) : joinSep '/' [k] = k := rfl

theorem joinSep_mem_slash {s : List Str} (hne : s ≠ []) (h2 : 1 < s.length) :
    ('/' : Char) ∈ joinSep '/' s := by
  cases s with
  | nil => exact absurd rfl hne
  | cons k r =>
    cases r with
    | nil => simp at h2
    | cons q r' =>
      rw [joinSep_cons k (q :: r') (List.cons_ne_nil q r'), List.mem_append]
      exact Or.inr (List.mem_cons_self _ _)

theorem joinSep_inj {a b : List Str} (ha : ∀ s ∈ a, '/' ∉ s) (hb : ∀ s ∈ b, '/' ∉ s)
    (hna : a ≠ []) (hnb : b ≠ []) (h : joinSep '/' a = joinSep '/' b) : a = b := by
  induction a generalizing b with
  | nil => exact absurd rfl hna
  | cons k s ih =>
    cases b with
    | nil => exact absurd rfl hnb
    | cons k' s' =>
      rcases s with _ | ⟨q, r⟩
      · rcases s' with _ | ⟨q', r'⟩
        · rw [joinSep_single, joinSep_single] at h
          rw [h]
        · rw [joinSep_single, joinSep_cons k' _ (List.cons_ne_nil q' r')] at h
          have hm : ('/' : Char) ∈ k' ++ '/' :: joinSep '/' (q' :: r') :=
            List.mem_append.mpr (Or.inr (List.mem_cons_self _ _))
          exact absurd (h ▸ hm) (ha k (List.mem_cons_self _ _))
      · rcases s' with _ | ⟨q', r'⟩
        · rw [joinSep_single, joinSep_cons k _ (List.cons_ne_nil q r)] at h
          have hm : ('/' : Char) ∈ k ++ '/' :: joinSep '/' (q :: r) :=
            List.mem_append.mpr (Or.inr (List.mem_cons_self _ _))
          exact absurd (h ▸ hm) (hb k' (List.mem_cons_self _ _))
        · rw [joinSep_cons k _ (List.cons_ne_nil q r),
            joinSep_cons k' _ (List.cons_ne_nil q' r')] at h
          obtain ⟨h1, h2⟩ := slash_split_inj k k' _ _ (ha k (List.mem_cons_self _ _))
            (hb k' (List.mem_cons_self _ _)) h
          have h3 := ih (fun x hx => ha x (List.mem_cons_of_mem _ hx))
            (fun x hx => hb x (List.mem_cons_of_mem _ hx))
            (List.cons_ne_nil q r) (List.cons_ne_nil q' r') h2
          rw [h1, h3]

theorem dictKeys_good (d : PDict) (hg : goodD d) : ∀ k ∈ dictKeys d, goodKey k := by
  cases d with
  | nil => intro k hk; cases hk
  | cons k' t r =>
    rw [goodD] at hg
    intro k hk
    rcases List.mem_cons.mp hk with hc | hc
    · exact hc ▸ hg.1
    · exact dictKeys_good r hg.2.2 k hc

mutual
theorem flattenT_segs_good (t : PTree) (hg : goodT t) :
    ∀ e ∈ flattenT t, ∀ s ∈ e.1, goodKey s := by
  cases t with
  | blob o =>
    intro e he s hs
    rw [flattenT, List.mem_singleton] at he
    subst he
    cases hs
  | dir d =>
    rw [flattenT]
    exact flattenD_segs_good d hg
theorem flattenD_segs_good (d : PDict) (hg : goodD d) :
    ∀ e ∈ flattenD d, ∀ s ∈ e.1, goodKey s := by
  cases d with
  | nil => intro e he; cases he
  | cons k t r =>
    rw [goodD] at hg
    intro e he s hs
    rw [flattenD, List.mem_append] at he
    rcases he with he | he
    · obtain ⟨f, hf, hfe⟩ := List.mem_map.mp he
      rw [← hfe] at hs
      rcases List.mem_cons.mp hs with hc | hc
      · exact hc ▸ hg.1
      · exact flattenT_segs_good t hg.2.1 f hf s hc
    · exact flattenD_segs_good r hg.2.2 e he s hs
end

mutual
theorem flattenT_oids_good (t : PTree) (hg : goodT t) :
    ∀ e ∈ flattenT t, goodOid e.2 := by
  cases t with
  | blob o =>
    intro e he
    rw [flattenT, List.mem_singleton] at he
    subst he
    exact hg
  | dir d =>
    rw [flattenT]
    exact flattenD_oids_good d hg
theorem flattenD_oids_good (d : PDict) (hg : goodD d) :
    ∀ e ∈ flattenD d, goodOid e.2 := by
  cases d with
  | nil => intro e he; cases he
  | cons k t r =>
    rw [goodD] at hg
    intro e he
    rw [flattenD, List.mem_append] at he
    rcases he with he | he
    · obtain ⟨f, hf, hfe⟩ := List.mem_map.mp he
      rw [← hfe]
      exact flattenT_oids_good t hg.2.1 f hf
    · exact flattenD_oids_good r hg.2.2 e he
end

mutual
theorem flattenT_paths_nodup (t : PTree) (hw : wfT t) :
    ((flattenT t).map Prod.fst).Nodup := by
  cases t with
  | blob o => simp [flattenT]
  | dir d =>
    rw [flattenT]
    exact flattenD_paths_nodup d hw.1
theorem flattenD_paths_nodup (d : PDict) (hw : wfD d) :
    ((flattenD d).map Prod.fst).Nodup := by
  cases d with
  | nil => simp [flattenD]
  | cons k t r =>
    rw [wfD] at hw
    rw [flattenD, List.map_append, List.nodup_append]
    refine ⟨?_, flattenD_paths_nodup r hw.2.1, ?_⟩
    · rw [List.map_map]
      rw [show (Prod.fst ∘ fun e : List Str × Str => (k :: e.1, e.2)) =
        (List.cons k ∘ Prod.fst) from rfl]
      rw [← List.map_map]
      exact List.Nodup.map (fun a b h => (List.cons.inj h).2)
        (flattenT_paths_nodup t hw.1)
    · intro p hp hq
      rw [List.map_map] at hp
      obtain ⟨f, _, hfe⟩ := List.mem_map.mp hp
      obtain ⟨e2, he2, hfe2⟩ := List.mem_map.mp hq
      have hht : e2.1 = k :: f.1 := by rw [hfe2, ← hfe]; rfl
      have : k ∈ dictKeys r := flattenD_head_mem_keys r e2 he2 k f.1 hht
      exact hw.2.2 this
end

theorem dictFind_depth (d : PDict) (k : Str) (t : PTree) (hf : dictFind d k = some t) :
    depthT t ≤ depthD d := by
  cases d with
  | nil => cases hf
  | cons k' t' r =>
    rw [dictFind] at hf
    rw [depthD]
    by_cases h : k' = k
    · rw [if_pos h] at hf
      exact (Option.some.inj hf) ▸ le_max_left _ _
    · rw [if_neg h] at hf
      exact le_trans (dictFind_depth r k t hf) (le_max_right _ _)

theorem subtreeOids_sub (d : PDict) (k : Str) (sub : PDict)
    (hf : dictFind d k = some (.dir sub)) :
    ∀ o ∈ subtreeOids sub, o ∈ dictObjOids d := by
  cases d with
  | nil => cases hf
  | cons k' t' r =>
    rw [dictFind] at hf
    intro o ho
    rw [dictObjOids, List.mem_append]
    by_cases h : k' = k
    · rw [if_pos h] at hf
      have : t' = .dir sub := Option.some.inj hf
      subst this
      left
      rw [treeObjOids]
      exact ho
    · rw [if_neg h] at hf
      exact Or.inr (subtreeOids_sub r k sub hf o ho)

theorem key_path_ne (base n n' : Str) (s s' : List Str) (hnn : n ≠ n')
    (hn : '/' ∉ n) (hn' : '/' ∉ n') (hs : ∀ x ∈ s, '/' ∉ x) (hs' : ∀ x ∈ s', '/' ∉ x) :
    base ++ joinSep '/' (n :: s) ≠ base ++ joinSep '/' (n' :: s') := by
  intro h
  have h2 : joinSep '/' (n :: s) = joinSep '/' (n' :: s') := List.append_cancel_left h
  have h3 := joinSep_inj
    (fun x hx => (List.mem_cons.mp hx).elim (fun e => e ▸ hn) (hs x))
    (fun x hx => (List.mem_cons.mp hx).elim (fun e => e ▸ hn') (hs' x))
    (List.cons_ne_nil _ _) (List.cons_ne_nil _ _) h2
  exact hnn (List.cons.inj h3).1

theorem entryTriples_names (d : PDict) :
    (entryTriples d).map (fun tr => tr.1) = dictKeys d := by
  cases d with
  | nil => rfl
  | cons k t r =>
    rw [entryTriples, dictKeys, List.map_cons, entryTriples_names r]

theorem entryTriples_realize (d : PDict) (hw : wfD d) :
    ∀ tr ∈ entryTriples d, ∃ t, dictFind d tr.1 = some t ∧
      tr.2.1 = treeOid t ∧ tr.2.2 = treeKind t := by
  intro tr htr
  rw [entryTriples_eq_map d hw] at htr
  obtain ⟨k, hk, hke⟩ := List.mem_map.mp htr
  obtain ⟨t, ht⟩ := (dictFind_mem_keys d k).mpr hk
  refine ⟨t, ?_, ?_, ?_⟩
  · rw [show tr.1 = k from by rw [← hke]]
    exact ht
  · rw [← hke]
    show treeOid (getT d k) = treeOid t
    rw [getT, ht]
    rfl
  · rw [← hke]
    show treeKind (getT d k) = treeKind t
    rw [getT, ht]
    rfl

theorem flatten_keys_nodup (d : PDict) (base : Str) (hw : wfD d) (hg : goodD d) :
    ((flattenD d).map (fun e => base ++ joinSep '/' e.1)).Nodup := by
  refine List.Nodup.map_on ?_ ((flattenD_paths_nodup d hw).of_map)
  intro x hx y hy hxy
  have h2 : joinSep '/' x.1 = joinSep '/' y.1 := List.append_cancel_left hxy
  have h3 := joinSep_inj
    (fun s hsm => (flattenD_segs_good d hg x hx s hsm).2.2.2.2)
    (fun s hsm => (flattenD_segs_good d hg y hy s hsm).2.2.2.2)
    (flattenD_path_ne_nil d x hx) (flattenD_path_ne_nil d y hy) h2
  exact List.inj_on_of_nodup_map (flattenD_paths_nodup d hw) hx hy h3

theorem sem_join (d : PDict) (base : Str) (hw : wfD d) :
    ((entryTriples d).map (fun tr => (flattenT (getT d tr.1)).map
        (fun e => (base ++ joinSep '/' (tr.1 :: e.1), e.2)))).flatten =
      (flattenD d).map (fun e => (base ++ joinSep '/' e.1, e.2)) := by
  cases d with
  | nil => rfl
  | cons k t r =>
    rw [wfD] at hw
    rw [entryTriples, flattenD, List.map_cons, List.flatten_cons, List.map_append,
      List.map_map]
    have hgk : getT (PDict.cons k t r) k = t := by
      rw [getT, dictFind, if_pos rfl]
      rfl
    have hcongr : ∀ tr ∈ entryTriples r,
        (fun tr : Str × Str × Str => (flattenT (getT (PDict.cons k t r) tr.1)).map
          (fun e => (base ++ joinSep '/' (tr.1 :: e.1), e.2))) tr =
        (fun tr : Str × Str × Str => (flattenT (getT r tr.1)).map
          (fun e => (base ++ joinSep '/' (tr.1 :: e.1), e.2))) tr := by
      intro tr htr
      have hkm : tr.1 ∈ dictKeys r := by
        rw [← entryTriples_names r]
        exact List.mem_map_of_mem (fun tr => tr.1) htr
      have hne : ¬ k = tr.1 := fun h => hw.2.2 (h ▸ hkm)
      simp only [getT, dictFind, if_neg hne]
    rw [List.map_congr_left hcongr, sem_join r base hw.2.1]
    dsimp only
    rw [hgk]
    rfl

theorem hash_object_ne_nil (dat t : Str) : hash_object dat t ≠ [] := by
  intro h
  have hl := hexEncode_length (t ++ '\x00' :: dat)
  rw [show hexEncode (t ++ '\x00' :: dat) = hash_object dat t from rfl, h] at hl
  simp [List.length_append] at hl

theorem entryTriples_good (d : PDict) (hw : wfD d) (hg : goodD d) :
    ∀ tr ∈ entryTriples d, goodKey tr.1 ∧ goodOid tr.2.1 ∧
      (tr.2.2 = BLOB_T ∨ tr.2.2 = TREE_T) := by
  intro tr htr
  obtain ⟨t, hf, ho, hk⟩ := entryTriples_realize d hw tr htr
  have hname : goodKey tr.1 := by
    refine dictKeys_good d hg tr.1 ?_
    rw [← entryTriples_names d]
    exact List.mem_map_of_mem (fun tr => tr.1) htr
  refine ⟨hname, ?_, ?_⟩
  · rw [ho]
    cases t with
    | blob o => exact dictFind_goodT d tr.1 _ hg hf
    | dir sub =>
      rw [treeOid]
      exact fun c hc => hexEncode_all_hex _ c hc
  · rw [hk]
    cases t with
    | blob o => exact Or.inl rfl
    | dir sub => exact Or.inr rfl

theorem noLB_lineOf (tr : Str × Str × Str) (hk : goodKey tr.1) (ho : goodOid tr.2.1)
    (ht : tr.2.2 = BLOB_T ∨ tr.2.2 = TREE_T) : noLB (lineOf tr) := by
  have h1 : noLB tr.2.2 := by
    rcases ht with h | h <;> rw [h] <;> decide
  exact noLB_append (noLB_append h1 (noLB_cons (by decide) (goodOid_noLB ho)))
    (noLB_cons (by decide) hk.2.2.2.1)

theorem pySplitlines_renderTree (l : List (Str × Str × Str))
    (h : ∀ tr ∈ l, noLB (lineOf tr)) :
    pySplitlines (renderTree l) = l.map lineOf := by
  induction l with
  | nil => rfl
  | cons tr r ih =>
    have he : renderTree (tr :: r) = lineOf tr ++ '\n' :: renderTree r := by
      cases tr with
      | mk n rest =>
        cases rest with
        | mk o k =>
          rw [renderTree, lineOf]
    rw [he, pySplitlines_noLB_append _ (h tr (List.mem_cons_self _ _)) _,
      ih (fun x hx => h x (List.mem_cons_of_mem _ hx)), List.map_cons]

theorem parse_lineOf (tr : Str × Str × Str) (hk : ' ' ∉ tr.2.2) (ho : ' ' ∉ tr.2.1) :
    (do
      let (type_, rest) ← pySplitOnce ' ' (lineOf tr)
      let (o, name) ← pySplitOnce ' ' rest
      some (type_, o, name) : Option (Str × Str × Str)) = some (tr.2.2, tr.2.1, tr.1) := by
  rw [lineOf, List.append_assoc, List.cons_append]
  rw [pySplitOnce_before ' ' tr.2.2 _ hk, Option.bind_eq_bind, Option.some_bind]
  dsimp only
  rw [pySplitOnce_before ' ' tr.2.1 _ ho]
  rfl

theorem mapM_parse (l : List (Str × Str × Str))
    (h : ∀ tr ∈ l, ' ' ∉ tr.2.2 ∧ ' ' ∉ tr.2.1) :
    (l.map lineOf).mapM (fun entry => do
        let (type_, rest) ← pySplitOnce ' ' entry
        let (o, name) ← pySplitOnce ' ' rest
        some (type_, o, name)) = some (l.map (fun tr => (tr.2.2, tr.2.1, tr.1))) := by
  induction l with
  | nil => rfl
  | cons tr r ih =>
    rw [List.map_cons, List.mapM_cons]
    rw [parse_lineOf tr (h tr (List.mem_cons_self _ _)).1 (h tr (List.mem_cons_self _ _)).2]
    rw [Option.bind_eq_bind, Option.some_bind]
    rw [ih (fun x hx => h x (List.mem_cons_of_mem _ hx))]
    rfl

theorem iterTreeEntries_writeTreeDir (objects : List Str) (d : PDict)
    (hw : wfD d) (hg : goodD d) (hmem : writeTreeDir d ∈ objects) :
    iterTreeEntries objects (writeTreeDir d) =
      some ((sortTriples (entryTriples d)).map (fun tr => (tr.2.2, tr.2.1, tr.1))) := by
  have hgood : ∀ tr ∈ sortTriples (entryTriples d), goodKey tr.1 ∧ goodOid tr.2.1 ∧
      (tr.2.2 = BLOB_T ∨ tr.2.2 = TREE_T) := by
    intro tr htr
    exact entryTriples_good d hw hg tr ((sortTriples_perm _).mem_iff.mp htr)
  rw [iterTreeEntries]
  rw [if_neg (by
    intro hx
    exact hash_object_ne_nil _ _ (List.isEmpty_iff.mp hx))]
  rw [show get_object objects (writeTreeDir d) TREE_T =
      some (renderTree (sortTriples (entryTriples d))) from
    get_object_hash objects _ TREE_T (by decide) hmem]
  rw [Option.bind_eq_bind, Option.some_bind]
  rw [pySplitlines_renderTree _ (fun tr htr =>
    noLB_lineOf tr (hgood tr htr).1 (hgood tr htr).2.1 (hgood tr htr).2.2)]
  rw [mapM_parse _ (fun tr htr => ⟨by
      rcases (hgood tr htr).2.2 with h | h <;> rw [h] <;> decide,
    goodOid_no_space (hgood tr htr).2.1⟩)]

theorem key_head_ne (base u v : Str) (su sv : List Str) (hu : '/' ∉ u) (hv : '/' ∉ v)
    (huv : u ≠ v) :
    base ++ joinSep '/' (u :: su) ≠ base ++ joinSep '/' (v :: sv) := by
  intro h
  have h2 : joinSep '/' (u :: su) = joinSep '/' (v :: sv) := List.append_cancel_left h
  rcases su with _ | ⟨q, r⟩
  · rcases sv with _ | ⟨q', r'⟩
    · rw [joinSep_single, joinSep_single] at h2
      exact huv h2
    · rw [joinSep_single, joinSep_cons v _ (List.cons_ne_nil q' r')] at h2
      have hm : ('/' : Char) ∈ v ++ '/' :: joinSep '/' (q' :: r') :=
        List.mem_append.mpr (Or.inr (List.mem_cons_self _ _))
      exact hu (h2 ▸ hm)
  · rcases sv with _ | ⟨q', r'⟩
    · rw [joinSep_single, joinSep_cons u _ (List.cons_ne_nil q r)] at h2
      have hm : ('/' : Char) ∈ u ++ '/' :: joinSep '/' (q :: r) :=
        List.mem_append.mpr (Or.inr (List.mem_cons_self _ _))
      exact hv (h2.symm ▸ hm)
    · rw [joinSep_cons u _ (List.cons_ne_nil q r),
        joinSep_cons v _ (List.cons_ne_nil q' r')] at h2
      exact huv (slash_split_inj u v _ _ hu hv h2).1

theorem get_tree_fold (fuel : Nat) (objects : List Str) (d : PDict) (base : Str)
    (hw : wfD d) (hg : goodD d)
    (IH : ∀ (sub : PDict) (base' : Str), wfD sub → goodD sub → depthD sub < fuel →
      (∀ o ∈ subtreeOids sub, o ∈ objects) →
      ∃ L, get_tree fuel objects (writeTreeDir sub) base' = some L ∧
        L.Perm ((flattenD sub).map (fun e => (base' ++ joinSep '/' e.1, e.2))))
    (hdep : depthD d < fuel + 1)
    (hobj : ∀ o ∈ dictObjOids d, o ∈ objects) :
    ∀ (ts : List (Str × Str × Str)) (acc : List (Str × Str)),
      (∀ tr ∈ ts, ∃ t, dictFind d tr.1 = some t ∧ tr.2.1 = treeOid t ∧ tr.2.2 = treeKind t) →
      ((ts.map (fun tr => tr.1)).Nodup) →
      (∀ x ∈ acc, ∀ tr ∈ ts, ∀ s : List Str, x.1 ≠ base ++ joinSep '/' (tr.1 :: s)) →
      ∃ L, (ts.map (fun tr => (tr.2.2, tr.2.1, tr.1))).foldlM (fun acc e =>
          let (type_, o, name) := e
          if '/' ∈ name then none
          else if name = ( "..".data) ∨ name = ( ".".data) then none
          else if type_ = BLOB_T then some (fsWrite acc (base ++ name) o)
          else if type_ = TREE_T then
            (get_tree fuel objects o (base ++ name ++ ['/'])).map (dictUpdate acc)
          else none) acc = some L ∧
        L.Perm (acc ++ (ts.map (fun tr => (flattenT (getT d tr.1)).map
          (fun e => (base ++ joinSep '/' (tr.1 :: e.1), e.2)))).flatten) := by
  intro ts
  induction ts with
  | nil =>
    intro acc _ _ _
    exact ⟨acc, rfl, by simp⟩
  | cons tr ts' ih =>
    intro acc hreal hnd hfresh
    obtain ⟨t, hf, hoid, hkind⟩ := hreal tr (List.mem_cons_self _ _)
    have hkey : goodKey tr.1 :=
      dictKeys_good d hg tr.1 ((dictFind_mem_keys d tr.1).mp ⟨t, hf⟩)
    have hnd' : ((ts'.map (fun tr => tr.1)).Nodup) := by
      rw [List.map_cons, List.nodup_cons] at hnd
      exact hnd.2
    have hhead : tr.1 ∉ ts'.map (fun tr => tr.1) := by
      rw [List.map_cons, List.nodup_cons] at hnd
      exact hnd.1
    rw [List.map_cons, List.foldlM_cons]
    have hslash : ¬ ('/' ∈ tr.1) := hkey.2.2.2.2
    have hdots : ¬ (tr.1 = ( "..".data) ∨ tr.1 = ( ".".data)) := by
      rintro (hc | hc)
      · exact hkey.2.2.1 hc
      · exact hkey.2.1 hc
    cases t with
    | blob o0 =>
      have hT : tr.2.2 = BLOB_T := by rw [hkind]; rfl
      have ho0 : tr.2.1 = o0 := by rw [hoid]; rfl
      have hkeyfresh : (base ++ tr.1) ∉ acc.map Prod.fst := by
        intro hm
        obtain ⟨x, hx, hxe⟩ := List.mem_map.mp hm
        exact hfresh x hx tr (List.mem_cons_self _ _) [] (by rw [joinSep_single]; exact hxe)
      dsimp only
      rw [if_neg hslash, if_neg hdots, if_pos hT, fsWrite_append acc _ _ hkeyfresh,
        Option.bind_eq_bind, Option.some_bind]
      have hfresh' : ∀ x ∈ acc ++ [(base ++ tr.1, tr.2.1)], ∀ tr' ∈ ts', ∀ s : List Str,
          x.1 ≠ base ++ joinSep '/' (tr'.1 :: s) := by
        intro x hx tr' htr' s
        rcases List.mem_append.mp hx with hc | hc
        · exact hfresh x hc tr' (List.mem_cons_of_mem _ htr') s
        · rw [List.mem_singleton] at hc
          subst hc
          show base ++ tr.1 ≠ _
          obtain ⟨t', hf', _, _⟩ := hreal tr' (List.mem_cons_of_mem _ htr')
          have hkey' : goodKey tr'.1 :=
            dictKeys_good d hg tr'.1 ((dictFind_mem_keys d tr'.1).mp ⟨t', hf'⟩)
          have hne : tr.1 ≠ tr'.1 := by
            intro hc2
            exact hhead (hc2 ▸ List.mem_map_of_mem (fun tr => tr.1) htr')
          rw [show base ++ tr.1 = base ++ joinSep '/' [tr.1] from by rw [joinSep_single]]
          exact key_head_ne base tr.1 tr'.1 [] s hkey.2.2.2.2 hkey'.2.2.2.2 hne
      obtain ⟨L, hL, hLp⟩ := ih (acc ++ [(base ++ tr.1, tr.2.1)])
        (fun x hx => hreal x (List.mem_cons_of_mem _ hx)) hnd' hfresh'
      refine ⟨L, hL, ?_⟩
      refine hLp.trans ?_
      rw [List.map_cons, List.flatten_cons]
      rw [show getT d tr.1 = .blob o0 from by rw [getT, hf]; rfl]
      rw [show (flattenT (.blob o0)).map
          (fun e => (base ++ joinSep '/' (tr.1 :: e.1), e.2)) =
          [(base ++ tr.1, tr.2.1)] from by
        rw [flattenT, List.map_singleton, joinSep_single, ho0]]
      rw [List.append_assoc]
    | dir sub =>
      have hT : tr.2.2 = TREE_T := by rw [hkind]; rfl
      have hTnotB : ¬ (tr.2.2 = BLOB_T) := by rw [hT]; decide
      have hoid' : tr.2.1 = writeTreeDir sub := by rw [hoid]; rfl
      have hwt : wfT (.dir sub) := dictFind_wfT d tr.1 _ hw hf
      have hgt : goodT (.dir sub) := dictFind_goodT d tr.1 _ hg hf
      have hdsub : depthD sub < fuel := by
        have h1 := dictFind_depth d tr.1 _ hf
        rw [depthT] at h1
        omega
      have hosub : ∀ o ∈ subtreeOids sub, o ∈ objects :=
        fun o ho => hobj o (subtreeOids_sub d tr.1 sub hf o ho)
      obtain ⟨Lsub, hLsub, hLsubP⟩ := IH sub (base ++ tr.1 ++ ['/']) hwt.1 hgt hdsub hosub
      have hLsubP2 : Lsub.Perm ((flattenD sub).map
          (fun e => (base ++ joinSep '/' (tr.1 :: e.1), e.2))) := by
        refine hLsubP.trans (List.Perm.of_eq (List.map_congr_left ?_))
        intro e he
        have hene : e.1 ≠ [] := flattenD_path_ne_nil sub e he
        rw [joinSep_cons tr.1 e.1 hene]
        rw [List.append_assoc, List.append_assoc, List.singleton_append]
      have hfreshsub : ∀ x ∈ Lsub, x.1 ∉ acc.map Prod.fst := by
        intro x hx hm
        obtain ⟨y, hy, hye⟩ := List.mem_map.mp hm
        obtain ⟨e, he, hee⟩ := List.mem_map.mp (hLsubP2.mem_iff.mp hx)
        refine hfresh y hy tr (List.mem_cons_self _ _) e.1 ?_
        rw [hye, ← hee]
      have hndsub : (Lsub.map Prod.fst).Nodup := by
        refine ((hLsubP.map Prod.fst).nodup_iff).mpr ?_
        rw [List.map_map]
        rw [show (Prod.fst ∘ fun e : List Str × Str =>
            ((base ++ tr.1 ++ ['/']) ++ joinSep '/' e.1, e.2)) =
          (fun e : List Str × Str => (base ++ tr.1 ++ ['/']) ++ joinSep '/' e.1) from rfl]
        exact flatten_keys_nodup sub _ hwt.1 hgt
      dsimp only
      rw [if_neg hslash, if_neg hdots, if_neg hTnotB, if_pos hT, hoid', hLsub,
        Option.map_some', dictUpdate_append acc Lsub hfreshsub hndsub,
        Option.bind_eq_bind, Option.some_bind]
      have hfresh' : ∀ x ∈ acc ++ Lsub, ∀ tr' ∈ ts', ∀ s : List Str,
          x.1 ≠ base ++ joinSep '/' (tr'.1 :: s) := by
        intro x hx tr' htr' s
        rcases List.mem_append.mp hx with hc | hc
        · exact hfresh x hc tr' (List.mem_cons_of_mem _ htr') s
        · obtain ⟨e, he, hee⟩ := List.mem_map.mp (hLsubP2.mem_iff.mp hc)
          obtain ⟨t', hf', _, _⟩ := hreal tr' (List.mem_cons_of_mem _ htr')
          have hkey' : goodKey tr'.1 :=
            dictKeys_good d hg tr'.1 ((dictFind_mem_keys d tr'.1).mp ⟨t', hf'⟩)
          have hne : tr.1 ≠ tr'.1 := by
            intro hc2
            exact hhead (hc2 ▸ List.mem_map_of_mem (fun tr => tr.1) htr')
          rw [show x.1 = base ++ joinSep '/' (tr.1 :: e.1) from by rw [← hee]]
          exact key_head_ne base tr.1 tr'.1 e.1 s hkey.2.2.2.2 hkey'.2.2.2.2 hne
      obtain ⟨L, hL, hLp⟩ := ih (acc ++ Lsub)
        (fun x hx => hreal x (List.mem_cons_of_mem _ hx)) hnd' hfresh'
      refine ⟨L, hL, ?_⟩
      refine hLp.trans ?_
      rw [List.map_cons, List.flatten_cons]
      rw [show getT d tr.1 = .dir sub from by rw [getT, hf]; rfl]
      rw [List.append_assoc]
      refine List.Perm.append_left acc ?_
      exact hLsubP2.append_right _

/-- `get_tree` on the id written by `write_tree_recursive` recovers the
flat content of the nested dict (as a mapping: up to entry order). -/
theorem get_tree_round : ∀ (fuel : Nat) (d : PDict) (base : Str) (objects : List Str),
    wfD d → goodD d → depthD d < fuel → (∀ o ∈ subtreeOids d, o ∈ objects) →
    ∃ L, get_tree fuel objects (writeTreeDir d) base = some L ∧
      L.Perm ((flattenD d).map (fun e => (base ++ joinSep '/' e.1, e.2))) := by
  intro fuel
  induction fuel with
  | zero =>
    intro d base objects _ _ hdep
    exact absurd hdep (Nat.not_lt_zero _)
  | succ fuel ih =>
    intro d base objects hw hg hdep hobj
    have hmem : writeTreeDir d ∈ objects := hobj _ (List.mem_cons_self _ _)
    have hobj' : ∀ o ∈ dictObjOids d, o ∈ objects :=
      fun o ho => hobj o (List.mem_cons_of_mem _ ho)
    have hreal : ∀ tr ∈ sortTriples (entryTriples d), ∃ t, dictFind d tr.1 = some t ∧
        tr.2.1 = treeOid t ∧ tr.2.2 = treeKind t :=
      fun tr htr => entryTriples_realize d hw tr ((sortTriples_perm _).mem_iff.mp htr)
    have hnd : ((sortTriples (entryTriples d)).map (fun tr => tr.1)).Nodup := by
      refine (((sortTriples_perm (entryTriples d)).map (fun tr => tr.1)).nodup_iff).mpr ?_
      rw [entryTriples_names d]
      exact wfD_keys_nodup d hw
    obtain ⟨L, hL, hLp⟩ := get_tree_fold fuel objects d base hw hg
      (fun sub base' h1 h2 h3 h4 => ih sub base' objects h1 h2 h3 h4) hdep hobj'
      (sortTriples (entryTriples d)) [] hreal hnd
      (fun x hx => absurd hx (List.not_mem_nil x))
    refine ⟨L, ?_, ?_⟩
    · rw [get_tree, iterTreeEntries_writeTreeDir objects d hw hg hmem]
      dsimp only
      exact hL
    · refine hLp.trans ?_
      rw [List.nil_append]
      have hsp : ((sortTriples (entryTriples d)).map (fun tr =>
          (flattenT (getT d tr.1)).map
            (fun e => (base ++ joinSep '/' (tr.1 :: e.1), e.2)))).Perm
          ((entryTriples d).map (fun tr =>
          (flattenT (getT d tr.1)).map
            (fun e => (base ++ joinSep '/' (tr.1 :: e.1), e.2)))) :=
        (sortTriples_perm (entryTriples d)).map _
      refine (hsp.flatten).trans ?_
      rw [sem_join d base hw]

/-- C1 counterexample: the two orders of the same two-entry mapping
`{a: 11, a/b: 22}` — non-empty relative paths with non-empty segments, as
the claim requires — do not give the same root id: iterated in one order
`write_tree` raises (`setdefault('a', {})` walks into a blob), in the
other it silently drops the `a/b` entry (`current['a'] = oid` overwrites
the subtree dict), so `write_tree` is not invariant under the iteration
order and the round trip cannot return the mapping. -/
theorem spec_c1_counterexample :
    c1Bad1.Perm c1Bad2 ∧
    (∀ e ∈ c1Bad1, e.1 ≠ [] ∧ ∀ s ∈ pySplit '/' e.1, s ≠ []) ∧
    write_tree c1Bad1 = none ∧
    write_tree c1Bad2 ≠ none ∧
    write_tree c1Bad1 ≠ write_tree c1Bad2 := by
  refine ⟨?_, ?_, ?_, ?_, ?_⟩ <;> decide

/-- C1 (amended): on a valid index — non-empty `'/'`-segments that are not
`'.'`/`'..'` and contain no line breaks, hex blob ids, no duplicate paths
and no path a segment-wise prefix of another — `write_tree` succeeds and
is invariant under permutation of the index, and `get_tree` applied to the
root id (with every written tree object present and enough fuel for the
nesting depth) returns the index as a mapping: a permutation of it. -/
theorem spec_c1_tree_determinism (M1 M2 : List (Str × Str))
    (hv : validIndex M1) (hp : M1.Perm M2) :
    write_tree M1 = write_tree M2 ∧
    ∃ d, buildTree M1 = some d ∧ write_tree M1 = some (writeTreeDir d) ∧
      ∀ fuel objects, depthD d < fuel → (∀ o ∈ subtreeOids d, o ∈ objects) →
        ∃ L, get_tree fuel objects (writeTreeDir d) [] = some L ∧ L.Perm M1 := by
  obtain ⟨d1, d2, h1, h2, heq, hwt1, hwt2⟩ := write_tree_perm_eq M1 M2 hv hp
  obtain ⟨d1', h1', hw1, hg1, hf1⟩ := buildTree_spec M1 hv
  have hdd : d1' = d1 := by
    rw [h1] at h1'
    exact Option.some.inj h1'.symm
  subst hdd
  refine ⟨hwt1.trans hwt2.symm, d1', h1, hwt1, ?_⟩
  intro fuel objects hdep hobj
  obtain ⟨L, hL, hLp⟩ := get_tree_round fuel d1' [] objects hw1 hg1 hdep hobj
  refine ⟨L, hL, ?_⟩
  refine hLp.trans ?_
  refine List.Perm.trans (hf1.map (fun e => (([] : Str) ++ joinSep '/' e.1, e.2))) ?_
  rw [List.map_map]
  refine List.Perm.of_eq ?_
  refine List.map_congr_left ?_ |>.trans (List.map_id M1)
  intro e _
  show ([] ++ joinSep '/' (segsOf e.1), e.2) = e
  rw [List.nil_append, segsOf, joinSep_pySplit]

/-- Witness for the amended C1 statement: a prefix-free two-entry index in
its two iteration orders. -/
theorem spec_c1_witness :
    write_tree c1M1 = write_tree c1M2 ∧
    ∃ d, buildTree c1M1 = some d ∧ write_tree c1M1 = some (writeTreeDir d) ∧
      ∀ fuel objects, depthD d < fuel → (∀ o ∈ subtreeOids d, o ∈ objects) →
        ∃ L, get_tree fuel objects (writeTreeDir d) [] = some L ∧ L.Perm c1M1 :=
  spec_c1_tree_determinism c1M1 c1M2 (by decide) (by decide)

end Ugit
